import Mathlib

/-
Verification of the task-lifecycle and recurrence core of `to_do_list.py`.

Modelling conventions (shallow embedding):
 - Python strings are `List Char` (ASCII fragment; every string the core
   manipulates is ASCII).
 - Python `datetime.date` is a record of year/month/day naturals together
   with a validity predicate; the model leaves the year unbounded above
   (Python caps it at 9999, which only matters for the textual round-trip,
   where the bound appears as an explicit hypothesis).
 - In-place mutation of a task dict inside the task list is modelled as
   functional update of the list at the index where the task was found.
 - `json.loads(json.dumps(state))` (a deep copy) is value capture.
 - Fresh uuid strings and `datetime.now()` timestamps are passed in as
   explicit parameters.
-/

namespace Todo

-- ===== Python string helpers =====

/-- Characters stripped by Python's `str.strip()` (space, tab, newline,
carriage return, vertical tab, form feed), tested by code point. -/
def pyWS (c : Char) : Bool :=
  c.toNat == 32 || c.toNat == 9 || c.toNat == 10 || c.toNat == 13 ||
    c.toNat == 11 || c.toNat == 12

/-- Python `str.strip()` on a character list. -/
def trimChars (l : List Char) : List Char :=
  ((l.dropWhile pyWS).reverse.dropWhile pyWS).reverse

/-- ASCII lowercasing of one character (the fragment of `str.lower()` the
program ever sees). -/
def lowerChar (c : Char) : Char :=
  if 65 ≤ c.toNat ∧ c.toNat ≤ 90 then Char.ofNat (c.toNat + 32) else c

/-- Python `str.lower()` on a character list. -/
def lowerStr (l : List Char) : List Char := l.map lowerChar

/-- Python `str.startswith`. -/
def startsWithChars : List Char → List Char → Bool
  | [], _ => true
  | _ :: _, [] => false
  | p :: ps, x :: xs => p = x && startsWithChars ps xs

/-- Python `needle in hay` on strings (substring containment). -/
def hasSub (needle : List Char) : List Char → Bool
  | [] => startsWithChars needle []
  | x :: xs => startsWithChars needle (x :: xs) || hasSub needle xs

/-- Worker for `splitOnC`: `acc` holds the current field reversed. -/
def splitOnAux (c : Char) : List Char → List Char → List (List Char)
  | [], acc => [acc.reverse]
  | x :: xs, acc =>
    if x = c then acc.reverse :: splitOnAux c xs []
    else splitOnAux c xs (x :: acc)

/-- Python `str.split(sep)` for a one-character separator. -/
def splitOnC (c : Char) (l : List Char) : List (List Char) :=
  splitOnAux c l []

/-- Worker for `splitWS`. -/
def splitWSAux : List Char → List Char → List (List Char)
  | [], acc => if acc.isEmpty then [] else [acc.reverse]
  | x :: xs, acc =>
    if pyWS x then
      if acc.isEmpty then splitWSAux xs []
      else acc.reverse :: splitWSAux xs []
    else splitWSAux xs (x :: acc)

/-- Python `str.split()` with no argument: split on whitespace runs,
discarding empty fields. -/
def splitWS (l : List Char) : List (List Char) :=
  splitWSAux l []

/-- Numeric value of a digit character. -/
def charVal (c : Char) : Nat := c.toNat - 48

/-- The digit character for `n % 10`. -/
def digitChar (n : Nat) : Char := Char.ofNat (48 + n % 10)

/-- Read a string of decimal digits as a natural number. -/
def readNat (l : List Char) : Nat :=
  l.foldl (fun a c => a * 10 + charVal c) 0

/-- Fixed-width decimal rendering, most significant digit first (the `%04d`
style padding used by `date.isoformat`). -/
def padDigits (w n : Nat) : List Char :=
  (List.range w).reverse.map (fun i => digitChar (n / 10 ^ i))

/-- Python `str.isdigit()` on the ASCII fragment. -/
def isdigitStr (l : List Char) : Bool :=
  !l.isEmpty && l.all Char.isDigit

/-- Worker for `pyIntDigits`: digits possibly separated by single
underscores, accumulating the value. -/
def pyIntDigitsGo : List Char → Nat → Option Nat
  | [], acc => some acc
  | c :: rest, acc =>
    if c = '_' then
      match rest with
      | [] => none
      | d :: rest2 =>
        if d.isDigit then pyIntDigitsGo rest2 (acc * 10 + charVal d) else none
    else if c.isDigit then pyIntDigitsGo rest (acc * 10 + charVal c) else none

/-- Python integer-literal digit part: a digit, then digits optionally
separated by single underscores. -/
def pyIntDigits : List Char → Option Nat
  | [] => none
  | c :: rest =>
    if c.isDigit then pyIntDigitsGo rest (charVal c) else none

/-- Python `int(text)`: optional surrounding whitespace, optional sign,
then a digit string. -/
def pyInt (l : List Char) : Option Int :=
  match trimChars l with
  | [] => none
  | c :: r =>
    if c = '+' then (pyIntDigits r).map (fun n => (n : Int))
    else if c = '-' then (pyIntDigits r).map (fun n => -(n : Int))
    else (pyIntDigits (c :: r)).map (fun n => (n : Int))

-- ===== Calendar dates =====

/-- A calendar date, the model of Python `datetime.date`. -/
structure Date where
  year : Nat
  month : Nat
  day : Nat
deriving DecidableEq, Repr

/-- The Gregorian leap-year test, written exactly as the source writes it:
`year % 4 == 0 and (year % 100 != 0 or year % 400 == 0)`. -/
def is_leap (y : Nat) : Bool :=
  y % 4 == 0 && (y % 100 != 0 || y % 400 == 0)

/-- Length of a month in the Gregorian calendar. -/
def monthLen (y m : Nat) : Nat :=
  if m = 2 then (if is_leap y then 29 else 28)
  else if m = 4 ∨ m = 6 ∨ m = 9 ∨ m = 11 then 30
  else 31

/-- Validity of a date record (what `datetime.date` enforces, minus the
upper year bound, which the model leaves open). -/
def validDate (d : Date) : Bool :=
  1 ≤ d.year && 1 ≤ d.month && d.month ≤ 12 && 1 ≤ d.day &&
    d.day ≤ monthLen d.year d.month

/-- The day after a date. -/
def succDay (d : Date) : Date :=
  if d.day < monthLen d.year d.month then ⟨d.year, d.month, d.day + 1⟩
  else if d.month < 12 then ⟨d.year, d.month + 1, 1⟩
  else ⟨d.year + 1, 1, 1⟩

/-- The day before a date (used only for negative `timedelta` steps). -/
def predDay (d : Date) : Date :=
  if 1 < d.day then ⟨d.year, d.month, d.day - 1⟩
  else if 1 < d.month then ⟨d.year, d.month - 1, monthLen d.year (d.month - 1)⟩
  else ⟨d.year - 1, 12, 31⟩

/-- `d + timedelta(days=n)` for a nonnegative count. -/
def addDays : Date → Nat → Date
  | d, 0 => d
  | d, n + 1 => addDays (succDay d) n

/-- `d - timedelta(days=n)` for a nonnegative count. -/
def subDays : Date → Nat → Date
  | d, 0 => d
  | d, n + 1 => subDays (predDay d) n

/-- `d + timedelta(days=z)` for a signed count. -/
def addDaysInt (d : Date) (z : Int) : Date :=
  if z < 0 then subDays d (-z).toNat else addDays d z.toNat

/-- Number of leap years strictly before year `y` (proleptic Gregorian). -/
def leapsBefore (y : Nat) : Nat :=
  (y - 1) / 4 - (y - 1) / 100 + (y - 1) / 400

/-- Days in all years strictly before year `y`. -/
def daysBeforeYear (y : Nat) : Nat :=
  365 * (y - 1) + leapsBefore y

/-- Days in months `1..m` of year `y`. -/
def daysUpto (y : Nat) : Nat → Nat
  | 0 => 0
  | m + 1 => daysUpto y m + monthLen y (m + 1)

/-- Python `date.toordinal`: day 1 is 0001-01-01. -/
def toOrdinal (d : Date) : Nat :=
  daysBeforeYear d.year + daysUpto d.year (d.month - 1) + d.day

/-- Python `date.weekday`: Monday is 0. -/
def wkday (d : Date) : Nat := (toOrdinal d + 6) % 7

-- ===== Date parsing and formatting =====

/-- One field of a date pattern: all digits, length within bounds
(`%Y` is exactly four digits, `%m`/`%d` are one or two). -/
def fieldOK (lo hi : Nat) (l : List Char) : Bool :=
  lo ≤ l.length && l.length ≤ hi && l.all Char.isDigit

/-- Attempt of `datetime.strptime(s, "%Y-%m-%d").date()`. -/
def parseYMD (l : List Char) : Option Date :=
  match splitOnC '-' l with
  | [a, b, c] =>
    if fieldOK 4 4 a && fieldOK 1 2 b && fieldOK 1 2 c then
      let d : Date := ⟨readNat a, readNat b, readNat c⟩
      if validDate d then some d else none
    else none
  | _ => none

/-- Attempt of `datetime.strptime(s, "%d/%m/%Y").date()`. -/
def parseDMY (l : List Char) : Option Date :=
  match splitOnC '/' l with
  | [a, b, c] =>
    if fieldOK 1 2 a && fieldOK 1 2 b && fieldOK 4 4 c then
      let d : Date := ⟨readNat c, readNat b, readNat a⟩
      if validDate d then some d else none
    else none
  | _ => none

/-- The source's `parse_date`: strip, empty means no date, try
`YYYY-MM-DD` then `DD/MM/YYYY`, finally retry `DD/MM/YYYY` with `-`
rewritten to `/`. -/
def parse_date (l : List Char) : Option Date :=
  let s := trimChars l
  if s.isEmpty then none
  else
    match parseYMD s with
    | some d => some d
    | none =>
      match parseDMY s with
      | some d => some d
      | none => parseDMY (s.map (fun c => if c = '-' then '/' else c))

/-- Python `date.isoformat`: zero-padded `YYYY-MM-DD`. -/
def dateIso (d : Date) : List Char :=
  padDigits 4 d.year ++ '-' :: padDigits 2 d.month ++ '-' :: padDigits 2 d.day

/-- The source's `format_date_for_display`: isoformat, or empty for no
date. -/
def format_date_for_display (d : Option Date) : List Char :=
  match d with
  | some dd => dateIso dd
  | none => []

-- ===== Repeat rule handling =====

/-- The source's `day_map` of weekday tokens. -/
def wkdLookup (t : List Char) : Option Nat :=
  if t = ['m', 'o', 'n'] then some 0
  else if t = ['m', 'o', 'n', 'd', 'a', 'y'] then some 0
  else if t = ['t', 'u', 'e'] then some 1
  else if t = ['t', 'u', 'e', 's', 'd', 'a', 'y'] then some 1
  else if t = ['w', 'e', 'd'] then some 2
  else if t = ['w', 'e', 'd', 'n', 'e', 's', 'd', 'a', 'y'] then some 2
  else if t = ['t', 'h', 'u'] then some 3
  else if t = ['t', 'h', 'u', 'r', 's', 'd', 'a', 'y'] then some 3
  else if t = ['f', 'r', 'i'] then some 4
  else if t = ['f', 'r', 'i', 'd', 'a', 'y'] then some 4
  else if t = ['s', 'a', 't'] then some 5
  else if t = ['s', 'a', 't', 'u', 'r', 'd', 'a', 'y'] then some 5
  else if t = ['s', 'u', 'n'] then some 6
  else if t = ['s', 'u', 'n', 'd', 'a', 'y'] then some 6
  else none

/-- The source's `for i in range(1, 15)` search: first day strictly after
`d`, at offset `i` and within the fuel, whose weekday is in `wds`. -/
def searchWeekday (d : Date) (wds : List Nat) : Nat → Nat → Option Date
  | 0, _ => none
  | fuel + 1, i =>
    let c := addDays d i
    if wkday c ∈ wds then some c else searchWeekday d wds fuel (i + 1)

/-- The literal month-length table of the source's `monthly` branch,
including its inline leap test. -/
def month_table (y : Nat) : List Nat :=
  [31, if y % 4 == 0 && (y % 100 != 0 || y % 400 == 0) then 29 else 28,
   31, 30, 31, 30, 31, 31, 30, 31, 30, 31]

/-- The source's `monthly` computation: increment the month, wrap December
to January of the next year, clamp the day by the table. -/
def monthlyNext (d : Date) : Date :=
  let m1 := d.month + 1
  let year := if m1 > 12 then d.year + 1 else d.year
  let month := if m1 > 12 then 1 else m1
  let day := min d.day ((month_table year).getD (month - 1) 0)
  ⟨year, month, day⟩

/-- The source's `next_date_for_repeat`. `none` for the rule plays Python
`None`; an empty-string rule is falsy in Python and is rejected by the same
guard. -/
def next_date_for_repeat (d? : Option Date) (rule? : Option (List Char)) :
    Option Date :=
  match d?, rule? with
  | none, _ => none
  | _, none => none
  | some d, some rule0 =>
    if rule0.isEmpty then none
    else
      let rule := lowerStr (trimChars rule0)
      if rule = ("daily".toList) then some (addDays d 1)
      else if rule = ("weekly".toList) then some (addDays d 7)
      else if rule = ("monthly".toList) then some (monthlyNext d)
      else
        let everyResult : Option Date :=
          if startsWithChars ("every ".toList) rule then
            let parts := splitWS rule
            if 3 ≤ parts.length &&
                startsWithChars ("day".toList) (parts.getD 2 []) then
              match pyInt (parts.getD 1 []) with
              | some n => some (addDaysInt d n)
              | none => none
            else none
          else none
        match everyResult with
        | some r => some r
        | none =>
          let toks := (splitOnC ',' rule).map trimChars
          let wds := toks.filterMap wkdLookup
          if rule.contains ',' || (wkdLookup rule).isSome then
            if wds.isEmpty then none
            else searchWeekday d wds 14 1
          else none

-- ===== Task records and the store =====

/-- A task record. The Python dict key `repeat` is spelled `rep` here
(`repeat` is reserved in Lean); `none` plays Python `None`. -/
structure Task where
  id : List Char
  item : List Char
  date : List Char
  priority : List Char
  completed : Bool
  rep : Option (List Char)
  notes : List Char
  created : List Char
deriving DecidableEq, Repr

/-- The source's `new_task`. The fresh uuid and the creation timestamp are
passed in as `fid` and `created`. -/
def new_task (item date_str priority : List Char) (rep : Option (List Char))
    (notes fid created : List Char) : Task :=
  let d := parse_date date_str
  { id := fid
    item := trimChars item
    date := match d with | some dd => format_date_for_display (some dd) | none => []
    priority := if priority.isEmpty then ("low".toList) else lowerStr priority
    completed := false
    rep := rep
    notes := notes
    created := created }

/-- Result of identifier resolution, with the task's index in the live
list recorded so that in-place dict mutation can be modelled as a list
update. -/
inductive ResolveRes where
  | found (t : Task) (i : Nat)
  | ambiguous (ms : List (Task × Nat))
  | notFound
deriving DecidableEq, Repr

/-- First index (from `i0`) whose task satisfies `p`. -/
def findFirstIdx (p : Task → Bool) : List Task → Nat → Option (Task × Nat)
  | [], _ => none
  | t :: ts, i0 => if p t then some (t, i0) else findFirstIdx p ts (i0 + 1)

/-- Tasks (with indices) whose item contains `needle` case-insensitively. -/
def substrMatches (needle : List Char) : List Task → Nat → List (Task × Nat)
  | [], _ => []
  | t :: ts, i0 =>
    if hasSub needle (lowerStr t.item) then
      (t, i0) :: substrMatches needle ts (i0 + 1)
    else substrMatches needle ts (i0 + 1)

/-- The id-then-substring tail of identifier resolution: exact id match
first, then the case-insensitive substring classification (one hit is a
match, none is no match, several are ambiguous). -/
def resolveByIdOrName (tasks : List Task) (ident : List Char) :
    ResolveRes :=
  match findFirstIdx (fun t => t.id = ident) tasks 0 with
  | some (t, i) => .found t i
  | none =>
    match substrMatches (lowerStr ident) tasks 0 with
    | [m] => .found m.1 m.2
    | [] => .notFound
    | ms => .ambiguous ms

/-- The source's `find_task_by_identifier`: strip; empty is no match; an
all-digit identifier is tried as a 1-based index and, when out of range,
falls through; then exact id; then case-insensitive substring with one hit
a match and several hits ambiguous. -/
def find_task_by_identifier (tasks : List Task) (ident0 : List Char) :
    ResolveRes :=
  let ident := trimChars ident0
  if ident.isEmpty then .notFound
  else
    let byIndex : Option (Task × Nat) :=
      if isdigitStr ident then
        let idx : Int := (readNat ident : Int) - 1
        if 0 ≤ idx ∧ idx < (tasks.length : Int) then
          match tasks[idx.toNat]? with
          | some t => some (t, idx.toNat)
          | none => none
        else none
      else none
    match byIndex with
    | some (t, i) => .found t i
    | none => resolveByIdOrName tasks ident

/-- What the callers see: the Python function returns the dict or `None`,
so both no match and an ambiguous match collapse to `none`. -/
def resolveOpt (tasks : List Task) (ident : List Char) :
    Option (Task × Nat) :=
  match find_task_by_identifier tasks ident with
  | .found t i => some (t, i)
  | _ => none

/-- In-memory session state: the live task list plus the undo stack. -/
structure AppState where
  tasks : List Task
  stack : List (List Task)
deriving DecidableEq, Repr

/-- The source's `push_undo`: append a deep copy, then drop the oldest
entry if the configured depth is exceeded. -/
def push_undo (depth : Nat) (stack : List (List Task))
    (state : List Task) : List (List Task) :=
  let st := stack ++ [state]
  if depth < st.length then st.drop 1 else st

/-- The source's `undo` wired as in `main`: pop the most recent snapshot
and make it the live list, or leave everything unchanged when the stack is
empty. -/
def undo_step (s : AppState) : AppState :=
  match s.stack.getLast? with
  | none => s
  | some st => { tasks := st, stack := s.stack.dropLast }

/-- The allowed priorities. -/
def priorities : List (List Char) :=
  [("high".toList), ("medium".toList), ("low".toList)]

/-- The source's `add_item` including the extra `push_undo` that `main`
performs before calling it (menu choice 1). Inputs arrive raw, as typed. -/
def add_item (depth : Nat) (item dateStr pri rep notes fid created : List Char)
    (s : AppState) : AppState :=
  let s1 : AppState := { s with stack := push_undo depth s.stack s.tasks }
  let itm := trimChars item
  if itm.isEmpty then s1
  else if s1.tasks.any (fun t => lowerStr t.item = lowerStr itm) then s1
  else
    let ds := trimChars dateStr
    if !ds.isEmpty && (parse_date ds).isNone then s1
    else
      let p0 := lowerStr (trimChars pri)
      let p1 := if p0.isEmpty then ("low".toList) else p0
      let p2 := if p1 ∈ priorities then p1 else ("low".toList)
      let rep' := if (trimChars rep).isEmpty then none else some (trimChars rep)
      let notes' := trimChars notes
      { tasks := s1.tasks ++ [new_task itm ds p2 rep' notes' fid created]
        stack := push_undo depth s1.stack s1.tasks }

/-- The source's `remove_item`; `confirm` is the y/n answer. -/
def remove_item (depth : Nat) (ident : List Char) (confirm : Bool)
    (s : AppState) : AppState :=
  match resolveOpt s.tasks ident with
  | none => s
  | some (t, _) =>
    if !confirm then s
    else
      { tasks := s.tasks.filter (fun x => x.id ≠ t.id)
        stack := push_undo depth s.stack s.tasks }

/-- The source's `rename_item`. -/
def rename_item (depth : Nat) (ident newName : List Char)
    (s : AppState) : AppState :=
  match resolveOpt s.tasks ident with
  | none => s
  | some (t, i) =>
    let nn := trimChars newName
    if nn.isEmpty then s
    else
      { tasks := s.tasks.set i { t with item := nn }
        stack := push_undo depth s.stack s.tasks }

/-- The source's `change_priority`. -/
def change_priority (depth : Nat) (ident newP : List Char)
    (s : AppState) : AppState :=
  match resolveOpt s.tasks ident with
  | none => s
  | some (t, i) =>
    let np := lowerStr (trimChars newP)
    if np ∉ priorities then s
    else
      { tasks := s.tasks.set i { t with priority := np }
        stack := push_undo depth s.stack s.tasks }

/-- The source's `change_date`; an empty input clears the date, a
non-empty input must parse. -/
def change_date (depth : Nat) (ident newDate : List Char)
    (s : AppState) : AppState :=
  match resolveOpt s.tasks ident with
  | none => s
  | some (t, i) =>
    let nd := trimChars newDate
    if !nd.isEmpty && (parse_date nd).isNone then s
    else
      { tasks := s.tasks.set i { t with date := nd }
        stack := push_undo depth s.stack s.tasks }

/-- The source's `toggle_done`: resolve, push the pre-state, flip the
flag in place, and if the task just became completed and has a truthy
repeat rule whose next occurrence exists, append a synthesized task. -/
def toggle_done (depth : Nat) (ident fid created : List Char)
    (s : AppState) : AppState :=
  match resolveOpt s.tasks ident with
  | none => s
  | some (t, i) =>
    let stack' := push_undo depth s.stack s.tasks
    let t' := { t with completed := !t.completed }
    let tasks1 := s.tasks.set i t'
    let tasks2 :=
      if t'.completed then
        match t'.rep with
        | some r =>
          if r.isEmpty then tasks1
          else
            match next_date_for_repeat (parse_date t'.date) (some r) with
            | some nd =>
              tasks1 ++ [new_task t'.item (dateIso nd) t'.priority (some r)
                t'.notes fid created]
            | none => tasks1
        | none => tasks1
      else tasks1
    { tasks := tasks2, stack := stack' }

/-- The source's `edit_notes`: no validation, any resolved task is
annotated. -/
def edit_notes (depth : Nat) (ident newNotes : List Char)
    (s : AppState) : AppState :=
  match resolveOpt s.tasks ident with
  | none => s
  | some (t, i) =>
    { tasks := s.tasks.set i { t with notes := trimChars newNotes }
      stack := push_undo depth s.stack s.tasks }

/-- The source's `clear_completed`. -/
def clear_completed (depth : Nat) (confirm : Bool)
    (s : AppState) : AppState :=
  if (s.tasks.filter (fun t => t.completed)).isEmpty then s
  else if !confirm then s
  else
    { tasks := s.tasks.filter (fun t => !t.completed)
      stack := push_undo depth s.stack s.tasks }

/-- One mutating menu command with its user inputs. -/
inductive Op where
  | addO (item dateStr pri rep notes fid created : List Char)
  | removeO (ident : List Char) (confirm : Bool)
  | renameO (ident newName : List Char)
  | chPriO (ident newP : List Char)
  | chDateO (ident newDate : List Char)
  | toggleO (ident fid created : List Char)
  | notesO (ident newNotes : List Char)
  | clearO (confirm : Bool)
deriving DecidableEq, Repr

/-- Dispatch of the mutating menu commands, as `main` wires them. -/
def applyOp (depth : Nat) : Op → AppState → AppState
  | .addO item dateStr pri rep notes fid created => add_item depth item dateStr pri rep notes fid created
  | .removeO ident confirm => remove_item depth ident confirm
  | .renameO ident newName => rename_item depth ident newName
  | .chPriO ident newP => change_priority depth ident newP
  | .chDateO ident newDate => change_date depth ident newDate
  | .toggleO ident fid created => toggle_done depth ident fid created
  | .notesO ident newNotes => edit_notes depth ident newNotes
  | .clearO confirm => clear_completed depth confirm

/-- Whether the command's validations pass, so that it actually mutates
the live list. -/
def opOk (op : Op) (tasks : List Task) : Bool :=
  match op with
  | .addO item dateStr _ _ _ _ _ =>
    let itm := trimChars item
    !itm.isEmpty &&
      !(tasks.any (fun t => lowerStr t.item = lowerStr itm)) &&
      ((trimChars dateStr).isEmpty || (parse_date (trimChars dateStr)).isSome)
  | .removeO ident confirm => (resolveOpt tasks ident).isSome && confirm
  | .renameO ident newName =>
    (resolveOpt tasks ident).isSome && !(trimChars newName).isEmpty
  | .chPriO ident newP =>
    (resolveOpt tasks ident).isSome &&
      decide (lowerStr (trimChars newP) ∈ priorities)
  | .chDateO ident newDate =>
    (resolveOpt tasks ident).isSome &&
      ((trimChars newDate).isEmpty || (parse_date (trimChars newDate)).isSome)
  | .toggleO ident _ _ => (resolveOpt tasks ident).isSome
  | .notesO ident _ => (resolveOpt tasks ident).isSome
  | .clearO confirm =>
    !(tasks.filter (fun t => t.completed)).isEmpty && confirm

/-- The comma-separated tokens of a repeat rule after the source's
strip/lower normalization, each stripped again. -/
def ruleTokens (rule0 : List Char) : List (List Char) :=
  (splitOnC ',' (lowerStr (trimChars rule0))).map trimChars

/-- The weekday numbers named by a repeat rule's tokens. -/
def ruleWeekdays (rule0 : List Char) : List Nat :=
  (ruleTokens rule0).filterMap wkdLookup

-- ===== Spec-side definitions (for refinement claims) =====

/-- Leap year exactly as the specification words it: divisible by 4,
except centuries not divisible by 400. -/
def leapSpec (y : Nat) : Bool :=
  decide (y % 4 = 0 ∧ ¬(y % 100 = 0 ∧ ¬y % 400 = 0))

/-- Last valid day of a month, with February decided by `leapSpec`. -/
def monthLenSpec (y m : Nat) : Nat :=
  if m = 2 then (if leapSpec y then 29 else 28)
  else if m = 4 ∨ m = 6 ∨ m = 9 ∨ m = 11 then 30
  else 31

/-- The calendar month following `(y, m)`; December rolls to January of
the next year. -/
def nextMonthSpec (y m : Nat) : Nat × Nat :=
  if m = 12 then (y + 1, 1) else (y, m + 1)

/-- The specification's description of the monthly rule: the date in the
following calendar month with the same day-of-month, clamped to that
month's last valid day. -/
def monthlySpec (d : Date) : Date :=
  let ym := nextMonthSpec d.year d.month
  ⟨ym.1, ym.2, min d.day (monthLenSpec ym.1 ym.2)⟩

-- ===== Heap model of dict aliasing (snapshot independence) =====

/-- Session state with Python aliasing made explicit: the live list holds
references into a heap of task dicts, while the undo history holds plain
values, because `push_undo` stores a `json` round-trip of the state. -/
structure HeapState where
  heap : Nat → Task
  live : List Nat
  hist : List (List Task)

/-- `push_undo` in the heap model: the deep copy resolves every live
reference to its current value and stores the values. -/
def pushUndoHeap (depth : Nat) (s : HeapState) : HeapState :=
  { s with hist := push_undo depth s.hist (s.live.map s.heap) }

/-- One in-place field assignment on a task dict, as the mutating
commands perform them (`t["item"] = ...`, `t["priority"] = ...`,
`t["date"] = ...`, `t["notes"] = ...`, `t["completed"] = ...`). -/
inductive FieldMut where
  | setItem (v : List Char)
  | setPri (v : List Char)
  | setDate (v : List Char)
  | setNotes (v : List Char)
  | setCompleted (b : Bool)
deriving DecidableEq

/-- Apply a field assignment to a task value. -/
def applyFieldMut (m : FieldMut) (t : Task) : Task :=
  match m with
  | .setItem v => { t with item := v }
  | .setPri v => { t with priority := v }
  | .setDate v => { t with date := v }
  | .setNotes v => { t with notes := v }
  | .setCompleted b => { t with completed := b }

/-- In-place mutation of the dict behind reference `r`. -/
def mutateRef (r : Nat) (m : FieldMut) (s : HeapState) : HeapState :=
  { s with heap := fun x => if x = r then applyFieldMut m (s.heap x) else s.heap x }

/-- A whole sequence of in-place mutations of live tasks. -/
def mutateRefs : List (Nat × FieldMut) → HeapState → HeapState
  | [], s => s
  | (r, m) :: rest, s => mutateRefs rest (mutateRef r m s)

-- ===== Concrete fixtures for witnesses and counterexamples =====

/-- A sample pending task with a weekly repeat rule. -/
def taskW : Task :=
  { id := ("id-w".toList), item := ("water plants".toList)
    date := ("2024-06-01".toList), priority := ("low".toList)
    completed := false, rep := some ("weekly".toList)
    notes := ("balcony".toList), created := ("t0".toList) }

/-- A sample pending task whose repeat rule is non-absent but
unrecognized. -/
def taskY : Task :=
  { id := ("id-y".toList), item := ("taxes".toList)
    date := ("2024-06-01".toList), priority := ("low".toList)
    completed := false, rep := some ("yearly".toList)
    notes := [], created := ("t0".toList) }

/-- A sample pending repeating task with no due date. -/
def taskN : Task :=
  { id := ("id-n".toList), item := ("stretch".toList)
    date := [], priority := ("low".toList)
    completed := false, rep := some ("daily".toList)
    notes := [], created := ("t0".toList) }

/-- A sample task whose item contains the digit 2. -/
def taskD : Task :=
  { id := ("id-d".toList), item := ("abc2".toList)
    date := [], priority := ("low".toList)
    completed := false, rep := none
    notes := [], created := ("t0".toList) }


-- ===== Helper lemmas: digits and strings =====

theorem charVal_digitChar (n : Nat) : charVal (digitChar n) = n % 10 := by
  have h : n % 10 < 10 := Nat.mod_lt _ (by norm_num)
  unfold digitChar charVal
  set k := n % 10 with hk
  interval_cases k <;> decide

theorem isDigit_digitChar (n : Nat) : (digitChar n).isDigit = true := by
  have h : n % 10 < 10 := Nat.mod_lt _ (by norm_num)
  unfold digitChar
  set k := n % 10 with hk
  interval_cases k <;> decide

theorem pyWS_digitChar (n : Nat) : pyWS (digitChar n) = false := by
  have h : n % 10 < 10 := Nat.mod_lt _ (by norm_num)
  unfold digitChar
  set k := n % 10 with hk
  interval_cases k <;> decide

theorem digitChar_ne_dash (n : Nat) : digitChar n ≠ '-' := by
  have h : n % 10 < 10 := Nat.mod_lt _ (by norm_num)
  unfold digitChar
  set k := n % 10 with hk
  interval_cases k <;> decide

theorem lowerChar_digitChar (n : Nat) : lowerChar (digitChar n) = digitChar n := by
  have h : n % 10 < 10 := Nat.mod_lt _ (by norm_num)
  unfold digitChar lowerChar
  set k := n % 10 with hk
  interval_cases k <;> decide

theorem readNat_foldl (l : List Char) (a : Nat) :
    l.foldl (fun a c => a * 10 + charVal c) a = a * 10 ^ l.length + readNat l := by
  induction l generalizing a with
  | nil => simp [readNat]
  | cons c t ih =>
    show t.foldl _ (a * 10 + charVal c) = _
    rw [ih (a * 10 + charVal c)]
    have hr : readNat (c :: t) = charVal c * 10 ^ t.length + readNat t := by
      show t.foldl _ (0 * 10 + charVal c) = _
      rw [ih (0 * 10 + charVal c)]
      ring
    rw [hr]
    simp only [List.length_cons, pow_succ]
    ring

theorem readNat_cons (c : Char) (t : List Char) :
    readNat (c :: t) = charVal c * 10 ^ t.length + readNat t := by
  show t.foldl _ (0 * 10 + charVal c) = _
  rw [readNat_foldl]
  ring

theorem length_padDigits (w n : Nat) : (padDigits w n).length = w := by
  simp [padDigits]

theorem padDigits_succ (w n : Nat) :
    padDigits (w + 1) n = digitChar (n / 10 ^ w) :: padDigits w n := by
  unfold padDigits
  rw [List.range_succ]
  simp

theorem digitChar_congr (a b : Nat) (h : a % 10 = b % 10) :
    digitChar a = digitChar b := by
  unfold digitChar
  rw [h]

theorem padDigits_mod (w n : Nat) : padDigits w (n % 10 ^ w) = padDigits w n := by
  unfold padDigits
  apply List.map_congr_left
  intro i hi
  simp only [List.mem_reverse, List.mem_range] at hi
  apply digitChar_congr
  have h1 : n / 10 ^ i % 10 = n % 10 ^ (i + 1) / 10 ^ i := by
    rw [← Nat.mod_mul_right_div_self, pow_succ]
  have h2 : n % 10 ^ w / 10 ^ i % 10 = n % 10 ^ (i + 1) / 10 ^ i := by
    rw [← Nat.mod_mul_right_div_self, ← pow_succ,
      Nat.mod_mod_of_dvd _ (pow_dvd_pow 10 hi)]
  rw [h1, h2]

theorem readNat_padDigits (w n : Nat) (h : n < 10 ^ w) :
    readNat (padDigits w n) = n := by
  induction w generalizing n with
  | zero =>
    have hn : n = 0 := by simpa using h
    subst hn
    decide
  | succ w ih =>
    rw [padDigits_succ, readNat_cons, length_padDigits, charVal_digitChar]
    rw [← padDigits_mod, ih _ (Nat.mod_lt _ (Nat.pos_pow_of_pos w (by norm_num)))]
    have hdiv : n / 10 ^ w < 10 := by
      rw [Nat.div_lt_iff_lt_mul (Nat.pos_pow_of_pos w (by norm_num))]
      calc n < 10 ^ (w + 1) := h
        _ = 10 * 10 ^ w := by rw [pow_succ, Nat.mul_comm]
    rw [Nat.mod_eq_of_lt hdiv]
    exact Nat.div_add_mod' n (10 ^ w)

theorem dropWhileFalse (p : Char → Bool) (l : List Char)
    (h : ∀ c ∈ l, p c = false) : l.dropWhile p = l := by
  cases l with
  | nil => rfl
  | cons x xs =>
    rw [List.dropWhile_cons, h x (by simp)]
    simp

theorem trimChars_eq_self (l : List Char) (h : ∀ c ∈ l, pyWS c = false) :
    trimChars l = l := by
  unfold trimChars
  rw [dropWhileFalse _ _ h, dropWhileFalse _ _ (by simp_all), List.reverse_reverse]

theorem lowerStr_eq_self (l : List Char)
    (h : ∀ c ∈ l, lowerChar c = c) : lowerStr l = l := by
  unfold lowerStr
  exact List.map_congr_left h |>.trans (List.map_id l)

theorem splitOnAux_nil (c : Char) (acc : List Char) :
    splitOnAux c [] acc = [acc.reverse] := rfl

theorem splitOnAux_cons (c x : Char) (xs acc : List Char) :
    splitOnAux c (x :: xs) acc =
      if x = c then acc.reverse :: splitOnAux c xs []
      else splitOnAux c xs (x :: acc) := rfl

theorem splitOnAux_no_sep (c : Char) (l acc : List Char)
    (h : ∀ x ∈ l, x ≠ c) : splitOnAux c l acc = [acc.reverse ++ l] := by
  induction l generalizing acc with
  | nil => simp [splitOnAux_nil]
  | cons x xs ih =>
    rw [splitOnAux_cons, if_neg (h x (by simp))]
    rw [ih _ (fun y hy => h y (by simp [hy]))]
    simp

theorem splitOnAux_sep (c : Char) (a rest acc : List Char)
    (h : ∀ x ∈ a, x ≠ c) :
    splitOnAux c (a ++ c :: rest) acc =
      (acc.reverse ++ a) :: splitOnAux c rest [] := by
  induction a generalizing acc with
  | nil =>
    simp only [List.nil_append, splitOnAux_cons, if_pos rfl]
    simp
  | cons x xs ih =>
    simp only [List.cons_append, splitOnAux_cons]
    rw [if_neg (h x (by simp))]
    rw [ih _ (fun y hy => h y (by simp [hy]))]
    simp

theorem splitOnC_three (c : Char) (a b e : List Char)
    (ha : ∀ x ∈ a, x ≠ c) (hb : ∀ x ∈ b, x ≠ c) (he : ∀ x ∈ e, x ≠ c) :
    splitOnC c (a ++ c :: b ++ c :: e) = [a, b, e] := by
  unfold splitOnC
  rw [show a ++ c :: b ++ c :: e = a ++ c :: (b ++ c :: e) by simp]
  rw [splitOnAux_sep c a _ [] ha]
  rw [splitOnAux_sep c b _ [] hb]
  rw [splitOnAux_no_sep c e [] he]
  simp

theorem splitWSAux_nil (acc : List Char) :
    splitWSAux [] acc = if acc.isEmpty then [] else [acc.reverse] := rfl

theorem splitWSAux_cons (x : Char) (xs acc : List Char) :
    splitWSAux (x :: xs) acc =
      if pyWS x then
        if acc.isEmpty then splitWSAux xs []
        else acc.reverse :: splitWSAux xs []
      else splitWSAux xs (x :: acc) := rfl

theorem splitWSAux_word (w r acc : List Char)
    (h : ∀ x ∈ w, pyWS x = false) :
    splitWSAux (w ++ r) acc = splitWSAux r (w.reverse ++ acc) := by
  induction w generalizing acc with
  | nil => simp
  | cons x xs ih =>
    simp only [List.cons_append, splitWSAux_cons]
    rw [h x (by simp)]
    simp only [Bool.false_eq_true, if_false]
    rw [ih _ (fun y hy => h y (by simp [hy]))]
    simp

theorem splitWS_three (a b e : List Char)
    (ha : ∀ x ∈ a, pyWS x = false) (hb : ∀ x ∈ b, pyWS x = false)
    (he : ∀ x ∈ e, pyWS x = false)
    (hna : a ≠ []) (hnb : b ≠ []) (hne : e ≠ []) :
    splitWS (a ++ ' ' :: b ++ ' ' :: e) = [a, b, e] := by
  unfold splitWS
  rw [show a ++ ' ' :: b ++ ' ' :: e = a ++ (' ' :: (b ++ (' ' :: e))) by simp]
  rw [splitWSAux_word a _ [] ha]
  rw [splitWSAux_cons]
  rw [if_pos (by decide)]
  rw [if_neg (by simpa using hna)]
  rw [splitWSAux_word b _ [] hb]
  rw [splitWSAux_cons]
  rw [if_pos (by decide)]
  rw [if_neg (by simpa using hnb)]
  rw [show e = e ++ [] by simp, splitWSAux_word e [] [] (by simp_all)]
  rw [splitWSAux_nil]
  rw [if_neg (by simpa using hne)]
  simp

-- ===== Helper lemmas: calendar arithmetic =====

theorem validDate_iff (d : Date) :
    validDate d = true ↔
      1 ≤ d.year ∧ 1 ≤ d.month ∧ d.month ≤ 12 ∧ 1 ≤ d.day ∧
        d.day ≤ monthLen d.year d.month := by
  unfold validDate
  simp [Bool.and_eq_true, decide_eq_true_eq, and_assoc]

theorem monthLen_ge (y m : Nat) : 28 ≤ monthLen y m := by
  unfold monthLen
  split_ifs <;> omega

theorem monthLen_le (y m : Nat) : monthLen y m ≤ 31 := by
  unfold monthLen
  split_ifs <;> omega

theorem succDay_valid (d : Date) (h : validDate d = true) :
    validDate (succDay d) = true := by
  rw [validDate_iff] at h
  obtain ⟨hy, hm1, hm2, hd1, hd2⟩ := h
  unfold succDay
  split_ifs with h1 h2 <;> rw [validDate_iff]
  · exact ⟨hy, hm1, hm2, by show 1 ≤ d.day + 1; omega,
      by show d.day + 1 ≤ monthLen d.year d.month; omega⟩
  · exact ⟨hy, by show 1 ≤ d.month + 1; omega,
      by show d.month + 1 ≤ 12; omega, le_refl 1,
      le_trans (by norm_num) (monthLen_ge _ _)⟩
  · exact ⟨by show 1 ≤ d.year + 1; omega, le_refl 1, by norm_num, le_refl 1,
      le_trans (by norm_num) (monthLen_ge _ _)⟩

theorem is_leap_iff (y : Nat) :
    is_leap y = true ↔ y % 4 = 0 ∧ (y % 100 ≠ 0 ∨ y % 400 = 0) := by
  unfold is_leap
  simp [Bool.and_eq_true, Bool.or_eq_true, Nat.beq_eq_true_eq, bne_iff_ne]

theorem leapsBefore_succ (y : Nat) (hy : 1 ≤ y) :
    leapsBefore (y + 1) = leapsBefore y + (if is_leap y then 1 else 0) := by
  unfold leapsBefore
  by_cases h : is_leap y = true
  · rw [if_pos h]
    rw [is_leap_iff] at h
    omega
  · rw [if_neg h]
    rw [is_leap_iff] at h
    push_neg at h
    by_cases h4 : y % 4 = 0
    · have := h h4
      omega
    · omega

theorem daysUpto_twelve (y : Nat) :
    daysUpto y 12 = 365 + (if is_leap y then 1 else 0) := by
  show daysUpto y 12 = _
  by_cases h : is_leap y = true <;>
    simp [daysUpto, monthLen, h] <;> norm_num

theorem daysUpto_step (y m : Nat) (h : 1 ≤ m) :
    daysUpto y m = daysUpto y (m - 1) + monthLen y m := by
  obtain ⟨k, rfl⟩ : ∃ k, m = k + 1 := ⟨m - 1, by omega⟩
  simp [daysUpto]

theorem toOrdinal_succDay (d : Date) (h : validDate d = true) :
    toOrdinal (succDay d) = toOrdinal d + 1 := by
  rw [validDate_iff] at h
  obtain ⟨hy, hm1, hm2, hd1, hd2⟩ := h
  have rhs : toOrdinal d =
      daysBeforeYear d.year + daysUpto d.year (d.month - 1) + d.day := rfl
  unfold succDay
  split_ifs with h1 h2
  · have lhs : toOrdinal ⟨d.year, d.month, d.day + 1⟩ =
        daysBeforeYear d.year + daysUpto d.year (d.month - 1) + (d.day + 1) := rfl
    rw [lhs, rhs]
    omega
  · have lhs : toOrdinal ⟨d.year, d.month + 1, 1⟩ =
        daysBeforeYear d.year + daysUpto d.year (d.month + 1 - 1) + 1 := rfl
    have hstep : daysUpto d.year (d.month + 1 - 1) =
        daysUpto d.year (d.month - 1) + monthLen d.year d.month := by
      rw [show d.month + 1 - 1 = d.month by omega]
      exact daysUpto_step d.year d.month hm1
    rw [lhs, rhs, hstep]
    omega
  · have hm12 : d.month = 12 := by omega
    have hlen12 : monthLen d.year 12 = 31 := by unfold monthLen; norm_num
    have hday : d.day = 31 := by
      rw [hm12] at hd2 h1
      omega
    have lhs : toOrdinal ⟨d.year + 1, 1, 1⟩ =
        daysBeforeYear (d.year + 1) + daysUpto (d.year + 1) 0 + 1 := rfl
    have h0 : daysUpto (d.year + 1) 0 = 0 := rfl
    have h11 : daysUpto d.year 12 =
        daysUpto d.year (12 - 1) + 31 := by
      rw [daysUpto_step d.year 12 (by omega), hlen12]
    have hdy : daysBeforeYear (d.year + 1) =
        daysBeforeYear d.year + daysUpto d.year 12 := by
      unfold daysBeforeYear
      rw [daysUpto_twelve, leapsBefore_succ d.year hy]
      have he : d.year + 1 - 1 = d.year := by omega
      rw [he]
      split_ifs <;> omega
    rw [lhs, rhs, h0, hdy, h11, hm12, hday]
    omega

theorem addDays_zero (d : Date) : addDays d 0 = d := rfl

theorem addDays_succ (d : Date) (n : Nat) :
    addDays d (n + 1) = addDays (succDay d) n := rfl

theorem addDays_valid (d : Date) (n : Nat) (h : validDate d = true) :
    validDate (addDays d n) = true := by
  induction n generalizing d with
  | zero => exact h
  | succ n ih =>
    rw [addDays_succ]
    exact ih _ (succDay_valid d h)

theorem toOrdinal_addDays (d : Date) (n : Nat) (h : validDate d = true) :
    toOrdinal (addDays d n) = toOrdinal d + n := by
  induction n generalizing d with
  | zero => rfl
  | succ n ih =>
    rw [addDays_succ, ih _ (succDay_valid d h), toOrdinal_succDay d h]
    omega

theorem wkday_addDays (d : Date) (n : Nat) (h : validDate d = true) :
    wkday (addDays d n) = (wkday d + n) % 7 := by
  unfold wkday
  rw [toOrdinal_addDays d n h]
  omega

-- ===== Helper lemmas: the undo stack =====

theorem push_undo_eq_drop (depth : Nat) (st : List (List Task)) (x : List Task)
    (h : st.length ≤ depth) :
    push_undo depth st x = (st ++ [x]).drop (st.length + 1 - depth) := by
  unfold push_undo
  simp only [List.length_append, List.length_cons, List.length_nil]
  split_ifs with hlt
  · rw [show st.length + 1 - depth = 1 by omega]
  · rw [show st.length + 1 - depth = 0 by omega, List.drop_zero]

theorem push_undo_len_le (depth : Nat) (st : List (List Task)) (x : List Task)
    (h : st.length ≤ depth) : (push_undo depth st x).length ≤ depth := by
  rw [push_undo_eq_drop depth st x h, List.length_drop]
  simp only [List.length_append, List.length_cons, List.length_nil]
  omega

theorem push_undo_getLast (depth : Nat) (st : List (List Task)) (x : List Task)
    (hd : 1 ≤ depth) : (push_undo depth st x).getLast? = some x := by
  show (if depth < (st ++ [x]).length then List.drop 1 (st ++ [x])
    else st ++ [x]).getLast? = some x
  split_ifs with hlt
  · simp only [List.length_append, List.length_cons, List.length_nil] at hlt
    cases st with
    | nil => simp at hlt; omega
    | cons y st' =>
      simp only [List.cons_append, List.drop_succ_cons, List.drop_zero]
      exact List.getLast?_concat _
  · exact List.getLast?_concat _

theorem foldl_push_undo (depth : Nat) (l : List (List Task)) :
    ∀ st, st.length ≤ depth →
      List.foldl (push_undo depth) st l =
        (st ++ l).drop (st.length + l.length - depth) := by
  induction l with
  | nil =>
    intro st h
    simp only [List.foldl_nil, List.append_nil, List.length_nil, Nat.add_zero]
    rw [Nat.sub_eq_zero_of_le h, List.drop_zero]
  | cons x t ih =>
    intro st h
    rw [List.foldl_cons, ih _ (push_undo_len_le depth st x h),
      push_undo_eq_drop depth st x h]
    have hk : st.length + 1 - depth ≤ (st ++ [x]).length := by
      simp only [List.length_append, List.length_cons, List.length_nil]
      omega
    have e1 : ((st ++ [x]) ++ t).drop (st.length + 1 - depth) =
        (st ++ [x]).drop (st.length + 1 - depth) ++ t := by
      rw [List.drop_append_eq_append_drop, Nat.sub_eq_zero_of_le hk,
        List.drop_zero]
    rw [← e1, List.drop_drop, List.length_drop]
    have e2 : (st ++ [x]) ++ t = st ++ x :: t := by simp
    rw [e2]
    congr 1
    simp only [List.length_append, List.length_cons, List.length_nil]
    omega

theorem mutateRef_hist (r : Nat) (m : FieldMut) (s : HeapState) :
    (mutateRef r m s).hist = s.hist := rfl

theorem mutateRefs_hist (ms : List (Nat × FieldMut)) (s : HeapState) :
    (mutateRefs ms s).hist = s.hist := by
  induction ms generalizing s with
  | nil => rfl
  | cons p rest ih =>
    obtain ⟨r, m⟩ := p
    show (mutateRefs rest (mutateRef r m s)).hist = s.hist
    rw [ih (mutateRef r m s), mutateRef_hist]

/-- C7: with a configured depth N, pushing N+1 snapshots onto an empty
undo history keeps exactly the N most recent ones (the oldest is dropped
from the front), popping on an empty history leaves the whole session
state unchanged, and popping otherwise restores the most recently pushed
snapshot and removes it from the back of the history. -/
theorem undo_depth_cap_and_pop :
    (∀ (depth : Nat) (l : List (List Task)), l.length = depth + 1 →
        List.foldl (push_undo depth) [] l = l.drop 1) ∧
    (∀ s : AppState, s.stack = [] → undo_step s = s) ∧
    (∀ (s : AppState) (st : List Task), s.stack.getLast? = some st →
        undo_step s = { tasks := st, stack := s.stack.dropLast }) := by
  refine ⟨?_, ?_, ?_⟩
  · intro depth l hl
    rw [foldl_push_undo depth l [] (by simp)]
    simp only [List.nil_append, List.length_nil, Nat.zero_add, hl]
    rw [show depth + 1 - depth = 1 by omega]
  · intro s hs
    unfold undo_step
    rw [hs]
    rfl
  · intro s st hst
    unfold undo_step
    rw [hst]

/-- Witness for C7 at depth 2 with three pushes, an empty-stack pop, and
a singleton-stack pop. -/
theorem undo_depth_cap_and_pop_witness :
    List.foldl (push_undo 2) [] [[], [taskW], [taskD]] = [[taskW], [taskD]] ∧
    undo_step ⟨[taskW], []⟩ = ⟨[taskW], []⟩ ∧
    undo_step ⟨[], [[taskD]]⟩ = ⟨[taskD], []⟩ :=
  ⟨undo_depth_cap_and_pop.1 2 _ rfl, undo_depth_cap_and_pop.2.1 _ rfl,
    undo_depth_cap_and_pop.2.2 _ _ rfl⟩

/-- C8: a pushed snapshot is a value copy of the live collection: any
sequence of in-place field mutations of live task dicts leaves every
stored snapshot in the history untouched, and the snapshot just pushed
holds the values the live references had at push time. -/
theorem snapshot_deep_copy_independent (depth : Nat) (s : HeapState)
    (ms : List (Nat × FieldMut)) (hd : 1 ≤ depth) :
    (mutateRefs ms (pushUndoHeap depth s)).hist = (pushUndoHeap depth s).hist ∧
    (pushUndoHeap depth s).hist.getLast? = some (s.live.map s.heap) :=
  ⟨mutateRefs_hist ms _, push_undo_getLast depth _ _ hd⟩

/-- Witness for C8: one live task, renamed in place after a push. -/
theorem snapshot_deep_copy_independent_witness :
    (mutateRefs [(0, FieldMut.setItem ("x".toList))]
        (pushUndoHeap 1 ⟨fun _ => taskW, [0], []⟩)).hist =
      (pushUndoHeap 1 ⟨fun _ => taskW, [0], []⟩).hist ∧
    (pushUndoHeap 1 ⟨fun _ => taskW, [0], []⟩).hist.getLast? = some [taskW] :=
  snapshot_deep_copy_independent 1 ⟨fun _ => taskW, [0], []⟩
    [(0, FieldMut.setItem ("x".toList))] (by norm_num)

-- ===== Helper lemmas: formatting and parsing =====

theorem mem_padDigits (w n : Nat) (c : Char) (h : c ∈ padDigits w n) :
    ∃ k, c = digitChar k := by
  unfold padDigits at h
  simp only [List.mem_map] at h
  obtain ⟨i, _, rfl⟩ := h
  exact ⟨_, rfl⟩

theorem dateIso_not_ws (d : Date) : ∀ c ∈ dateIso d, pyWS c = false := by
  intro c hc
  unfold dateIso at hc
  rcases List.mem_append.mp hc with h | h
  · rcases List.mem_append.mp h with h | h
    · obtain ⟨k, rfl⟩ := mem_padDigits _ _ _ h
      exact pyWS_digitChar k
    · rcases List.mem_cons.mp h with rfl | h
      · decide
      · obtain ⟨k, rfl⟩ := mem_padDigits _ _ _ h
        exact pyWS_digitChar k
  · rcases List.mem_cons.mp h with rfl | h
    · decide
    · obtain ⟨k, rfl⟩ := mem_padDigits _ _ _ h
      exact pyWS_digitChar k

theorem padDigits_no_dash (w n : Nat) : ∀ x ∈ padDigits w n, x ≠ '-' := by
  intro x hx
  obtain ⟨k, rfl⟩ := mem_padDigits _ _ _ hx
  exact digitChar_ne_dash k

theorem fieldOK_padDigits (lo hi w n : Nat) (h1 : lo ≤ w) (h2 : w ≤ hi) :
    fieldOK lo hi (padDigits w n) = true := by
  unfold fieldOK
  simp only [length_padDigits, Bool.and_eq_true, decide_eq_true_eq,
    List.all_eq_true]
  refine ⟨⟨h1, h2⟩, ?_⟩
  intro c hc
  obtain ⟨k, rfl⟩ := mem_padDigits _ _ _ hc
  exact isDigit_digitChar k

theorem splitOnC_dateIso (d : Date) :
    splitOnC '-' (dateIso d) =
      [padDigits 4 d.year, padDigits 2 d.month, padDigits 2 d.day] := by
  rw [show dateIso d = padDigits 4 d.year ++ '-' :: padDigits 2 d.month ++
    '-' :: padDigits 2 d.day from rfl]
  exact splitOnC_three '-' _ _ _ (padDigits_no_dash 4 d.year)
    (padDigits_no_dash 2 d.month) (padDigits_no_dash 2 d.day)

theorem parseYMD_dateIso (d : Date) (hv : validDate d = true)
    (hy : d.year ≤ 9999) : parseYMD (dateIso d) = some d := by
  have hv' := (validDate_iff d).mp hv
  have hml : monthLen d.year d.month ≤ 31 := monthLen_le d.year d.month
  simp only [parseYMD, splitOnC_dateIso d]
  rw [fieldOK_padDigits 4 4 4 d.year (by norm_num) (by norm_num),
    fieldOK_padDigits 1 2 2 d.month (by norm_num) (by norm_num),
    fieldOK_padDigits 1 2 2 d.day (by norm_num) (by norm_num)]
  simp only [Bool.and_self, if_true]
  rw [readNat_padDigits 4 d.year (by norm_num; omega),
    readNat_padDigits 2 d.month (by norm_num; omega),
    readNat_padDigits 2 d.day (by norm_num; omega)]
  rw [if_pos hv]

theorem parse_dateIso (d : Date) (hv : validDate d = true)
    (hy : d.year ≤ 9999) : parse_date (dateIso d) = some d := by
  have hlen : (dateIso d).length = 10 := by
    unfold dateIso
    simp [length_padDigits]
  have hne : (dateIso d).isEmpty = false := by
    cases hE : dateIso d with
    | nil => rw [hE] at hlen; simp at hlen
    | cons a t => rfl
  simp only [parse_date]
  rw [trimChars_eq_self _ (dateIso_not_ws d), hne]
  simp only [Bool.false_eq_true, if_false]
  rw [parseYMD_dateIso d hv hy]

/-- C9: parsing the canonical `YYYY-MM-DD` rendering of any valid date
gives back that date. -/
theorem parse_format_roundtrip (d : Date) (hv : validDate d = true)
    (hy : d.year ≤ 9999) :
    parse_date (format_date_for_display (some d)) = some d :=
  parse_dateIso d hv hy

/-- Witness for C9 at 2024-06-07. -/
theorem parse_format_roundtrip_witness :
    validDate ⟨2024, 6, 7⟩ = true ∧
      parse_date (format_date_for_display (some ⟨2024, 6, 7⟩)) =
        some ⟨2024, 6, 7⟩ :=
  ⟨by decide, parse_format_roundtrip ⟨2024, 6, 7⟩ (by decide) (by decide)⟩

-- ===== Helper lemmas: the monthly rule =====

theorem leapSpec_eq (y : Nat) : leapSpec y = is_leap y := by
  unfold leapSpec is_leap
  by_cases h4 : y % 4 = 0 <;> by_cases h100 : y % 100 = 0 <;>
    by_cases h400 : y % 400 = 0 <;> simp [h4, h100, h400]

theorem monthLenSpec_eq (y m : Nat) : monthLenSpec y m = monthLen y m := by
  unfold monthLenSpec monthLen
  rw [leapSpec_eq]

theorem month_table_getD (y m : Nat) (h1 : 1 ≤ m) (h2 : m ≤ 12) :
    (month_table y).getD (m - 1) 0 = monthLen y m := by
  interval_cases m <;> rfl

theorem monthlyNext_eq_spec (d : Date) (h : validDate d = true) :
    monthlyNext d = monthlySpec d := by
  have hv := (validDate_iff d).mp h
  simp only [monthlyNext, monthlySpec, nextMonthSpec]
  by_cases hm : d.month = 12
  · rw [hm]
    norm_num
    simp [month_table, monthLenSpec]
  · have hlt : ¬(d.month + 1 > 12) := by omega
    rw [if_neg hlt, if_neg hlt, if_neg hm]
    rw [month_table_getD d.year (d.month + 1) (by omega) (by omega)]
    rw [monthLenSpec_eq]

/-- C4: the monthly rule yields the same day-of-month in the following
calendar month (December rolling into January of the next year), clamped
to that month's last valid day under the standard leap rule; in
particular 2024-01-31 goes to 2024-02-29 and 2023-01-31 to 2023-02-28. -/
theorem monthly_rule (d : Date) (hv : validDate d = true) :
    next_date_for_repeat (some d) (some ("monthly".toList)) =
        some (monthlySpec d) ∧
    next_date_for_repeat (some ⟨2024, 1, 31⟩) (some ("monthly".toList)) =
        some ⟨2024, 2, 29⟩ ∧
    next_date_for_repeat (some ⟨2023, 1, 31⟩) (some ("monthly".toList)) =
        some ⟨2023, 2, 28⟩ := by
  refine ⟨?_, by decide, by decide⟩
  have h1 : next_date_for_repeat (some d) (some ("monthly".toList)) =
      some (monthlyNext d) := rfl
  rw [h1, monthlyNext_eq_spec d hv]

/-- Witness for C4 at 2024-05-31 (clamped to 2024-06-30). -/
theorem monthly_rule_witness :
    validDate ⟨2024, 5, 31⟩ = true ∧
      next_date_for_repeat (some ⟨2024, 5, 31⟩) (some ("monthly".toList)) =
        some (monthlySpec ⟨2024, 5, 31⟩) :=
  ⟨by decide, (monthly_rule ⟨2024, 5, 31⟩ (by decide)).1⟩

-- ===== Helper lemmas: the every-N-days rule =====

theorem digitChar_ne_plus (n : Nat) : digitChar n ≠ '+' := by
  have h : n % 10 < 10 := Nat.mod_lt _ (by norm_num)
  unfold digitChar
  set k := n % 10 with hk
  interval_cases k <;> decide

theorem digitChar_ne_minus (n : Nat) : digitChar n ≠ '-' :=
  digitChar_ne_dash n

theorem digitChar_ne_underscore (n : Nat) : digitChar n ≠ '_' := by
  have h : n % 10 < 10 := Nat.mod_lt _ (by norm_num)
  unfold digitChar
  set k := n % 10 with hk
  interval_cases k <;> decide

theorem pyIntDigitsGo_cons (c : Char) (rest : List Char) (acc : Nat) :
    pyIntDigitsGo (c :: rest) acc =
      if c = '_' then
        (match rest with
         | [] => none
         | d :: rest2 =>
           if d.isDigit then pyIntDigitsGo rest2 (acc * 10 + charVal d)
           else none)
      else if c.isDigit then pyIntDigitsGo rest (acc * 10 + charVal c)
      else none := by
  rw [pyIntDigitsGo.eq_def]

theorem pyIntDigitsGo_digits (l : List Char) (acc : Nat)
    (h : ∀ c ∈ l, ∃ k, c = digitChar k) :
    pyIntDigitsGo l acc =
      some (l.foldl (fun a c => a * 10 + charVal c) acc) := by
  induction l generalizing acc with
  | nil => rfl
  | cons c rest ih =>
    obtain ⟨k, rfl⟩ := h c (by simp)
    rw [pyIntDigitsGo_cons]
    rw [if_neg (digitChar_ne_underscore k), if_pos (isDigit_digitChar k)]
    rw [ih _ (fun x hx => h x (by simp [hx]))]
    rfl

theorem pyIntDigits_digits (l : List Char)
    (h : ∀ c ∈ l, ∃ k, c = digitChar k) (hne : l ≠ []) :
    pyIntDigits l = some (readNat l) := by
  cases l with
  | nil => exact absurd rfl hne
  | cons c rest =>
    obtain ⟨k, hk⟩ := h c (by simp)
    show (if c.isDigit then pyIntDigitsGo rest (charVal c) else none) = _
    rw [hk, if_pos (isDigit_digitChar k)]
    rw [pyIntDigitsGo_digits rest _ (fun x hx => h x (by simp [hx]))]
    rw [readNat_foldl]
    rw [show readNat (digitChar k :: rest) =
      charVal (digitChar k) * 10 ^ rest.length + readNat rest from
      readNat_cons _ _]

theorem trimChars_cons_concat (a b : Char) (m : List Char)
    (ha : pyWS a = false) (hb : pyWS b = false) :
    trimChars (a :: m ++ [b]) = a :: m ++ [b] := by
  unfold trimChars
  rw [List.cons_append, List.dropWhile_cons, ha]
  simp only [Bool.false_eq_true, if_false]
  rw [show (a :: (m ++ [b])).reverse = b :: (m.reverse ++ [a]) by simp]
  rw [List.dropWhile_cons, hb]
  simp only [Bool.false_eq_true, if_false]
  simp

theorem pyWS_not_digit (c : Char) (h : ∃ k, c = digitChar k) :
    pyWS c = false := by
  obtain ⟨k, rfl⟩ := h
  exact pyWS_digitChar k

theorem pyInt_pos_digits (l : List Char)
    (h : ∀ c ∈ l, ∃ k, c = digitChar k) (hne : l ≠ []) :
    pyInt l = some ((readNat l : Nat) : Int) := by
  cases l with
  | nil => exact absurd rfl hne
  | cons c rest =>
    obtain ⟨k, hk⟩ := h c (by simp)
    have htrim : trimChars (c :: rest) = c :: rest := by
      apply trimChars_eq_self
      intro x hx
      exact pyWS_not_digit x (h x hx)
    show (match trimChars (c :: rest) with
      | [] => none
      | c :: r =>
        if c = '+' then (pyIntDigits r).map (fun n => (n : Int))
        else if c = '-' then (pyIntDigits r).map (fun n => -(n : Int))
        else (pyIntDigits (c :: r)).map (fun n => (n : Int))) = _
    rw [htrim]
    show (if c = '+' then _ else if c = '-' then _ else
      (pyIntDigits (c :: rest)).map (fun n => (n : Int))) = _
    rw [hk, if_neg (digitChar_ne_plus k), if_neg (digitChar_ne_minus k)]
    rw [← hk, pyIntDigits_digits (c :: rest) h (by simp)]
    rfl

theorem pyInt_neg_digits (l : List Char)
    (h : ∀ c ∈ l, ∃ k, c = digitChar k) (hne : l ≠ []) :
    pyInt ('-' :: l) = some (-(readNat l : Int)) := by
  cases l with
  | nil => exact absurd rfl hne
  | cons c rest =>
    have htrim : trimChars ('-' :: (c :: rest)) = '-' :: (c :: rest) := by
      apply trimChars_eq_self
      intro x hx
      rcases List.mem_cons.mp hx with rfl | hx
      · decide
      · exact pyWS_not_digit x (h x hx)
    show (match trimChars ('-' :: (c :: rest)) with
      | [] => none
      | c :: r =>
        if c = '+' then (pyIntDigits r).map (fun n => (n : Int))
        else if c = '-' then (pyIntDigits r).map (fun n => -(n : Int))
        else (pyIntDigits (c :: r)).map (fun n => (n : Int))) = _
    rw [htrim]
    show (if '-' = '+' then _ else if ('-' : Char) = '-' then
      (pyIntDigits (c :: rest)).map (fun n => -(n : Int)) else _) = _
    rw [if_neg (by decide), if_pos rfl]
    rw [pyIntDigits_digits (c :: rest) h (by simp)]
    rfl

theorem startsWithChars_append (p l : List Char) :
    startsWithChars p (p ++ l) = true := by
  induction p with
  | nil => rfl
  | cons c t ih =>
    show (c = c && startsWithChars t (t ++ l)) = true
    rw [ih]
    simp

theorem next_every_token (d : Date) (tok : List Char) (z : Int)
    (h2 : ∀ c ∈ tok, pyWS c = false) (h3 : ∀ c ∈ tok, lowerChar c = c)
    (hne : tok ≠ []) (hz : pyInt tok = some z) :
    next_date_for_repeat (some d)
      (some (("every ".toList) ++ tok ++ (" days".toList))) =
      some (addDaysInt d z) := by
  set rule0 := ("every ".toList) ++ tok ++ (" days".toList) with hrule0
  have hshape : rule0 =
      'e' :: (("very ".toList) ++ tok ++ (" day".toList)) ++ ['s'] := by
    simp [hrule0]
  have htrim : trimChars rule0 = rule0 := by
    rw [hshape]
    exact trimChars_cons_concat 'e' 's' _ (by decide) (by decide)
  have hlower : lowerStr rule0 = rule0 := by
    rw [hrule0]
    unfold lowerStr
    rw [List.map_append, List.map_append]
    rw [show List.map lowerChar ("every ".toList) = "every ".toList by decide]
    rw [show List.map lowerChar (" days".toList) = " days".toList by decide]
    rw [show List.map lowerChar tok = tok from
      (List.map_congr_left h3).trans (List.map_id tok)]
  have hemp : rule0.isEmpty = false := by
    rw [hshape]
    rfl
  have hd1 : rule0 ≠ ("daily".toList) := by
    rw [hshape]
    intro h
    simp at h
  have hd2 : rule0 ≠ ("weekly".toList) := by
    rw [hshape]
    intro h
    simp at h
  have hd3 : rule0 ≠ ("monthly".toList) := by
    rw [hshape]
    intro h
    simp at h
  have hstart : startsWithChars ("every ".toList) rule0 = true := by
    rw [hrule0, List.append_assoc]
    exact startsWithChars_append _ _
  have hsplit : splitWS rule0 = [("every".toList), tok, ("days".toList)] := by
    rw [show rule0 = ("every".toList) ++ ' ' :: tok ++ ' ' :: ("days".toList)
      from by simp [hrule0]]
    exact splitWS_three _ _ _ (by decide) h2 (by decide) (by decide) hne
      (by decide)
  simp only [next_date_for_repeat]
  rw [hemp]
  simp only [Bool.false_eq_true, if_false]
  rw [htrim, hlower]
  rw [if_neg hd1, if_neg hd2, if_neg hd3]
  rw [hstart]
  simp only [if_true]
  rw [hsplit]
  simp only [List.length_cons, List.length_nil, List.getD_cons_succ,
    List.getD_cons_zero]
  rw [show (3 ≤ 2 + 1 && startsWithChars ("day".toList) ("days".toList)) =
    true by decide]
  simp only [if_true]
  rw [hz]

/-- C6 (amended): the rule `every N days` moves the date forward by
exactly the parsed integer N — including N = 0 (same date) and negative N
(backward) — while an unparsable N such as `every x days` means no
recurrence. -/
theorem every_n_days_rule (d : Date) (w n : Nat) (hw : 1 ≤ w)
    (hn : n < 10 ^ w) :
    (next_date_for_repeat (some d)
        (some (("every ".toList) ++ padDigits w n ++ (" days".toList))) =
      some (addDays d n)) ∧
    (1 ≤ n → next_date_for_repeat (some d)
        (some (("every ".toList) ++ ('-' :: padDigits w n) ++
          (" days".toList))) =
      some (subDays d n)) ∧
    next_date_for_repeat (some d) (some ("every x days".toList)) = none := by
  have hmem : ∀ c ∈ padDigits w n, ∃ k, c = digitChar k :=
    fun c hc => mem_padDigits _ _ _ hc
  have hpne : padDigits w n ≠ [] := by
    intro h
    have hl := length_padDigits w n
    rw [h] at hl
    simp at hl
    omega
  refine ⟨?_, ?_, ?_⟩
  · rw [next_every_token d _ ((n : Nat) : Int)
      (fun c hc => pyWS_not_digit c (hmem c hc))
      (fun c hc => by
        obtain ⟨k, hk⟩ := hmem c hc
        rw [hk]
        exact lowerChar_digitChar k)
      hpne
      (by rw [pyInt_pos_digits _ hmem hpne, readNat_padDigits w n hn])]
    unfold addDaysInt
    rw [if_neg (not_lt.mpr (Int.natCast_nonneg n))]
    rw [Int.toNat_natCast]
  · intro hn1
    rw [next_every_token d _ (-((n : Nat) : Int))
      (fun c hc => by
        rcases List.mem_cons.mp hc with rfl | hc
        · decide
        · exact pyWS_not_digit c (hmem c hc))
      (fun c hc => by
        rcases List.mem_cons.mp hc with rfl | hc
        · decide
        · obtain ⟨k, hk⟩ := hmem c hc
          rw [hk]
          exact lowerChar_digitChar k)
      (by simp)
      (by rw [pyInt_neg_digits _ hmem hpne, readNat_padDigits w n hn])]
    unfold addDaysInt
    rw [if_pos (by omega)]
    rw [neg_neg, Int.toNat_natCast]
  · rfl

/-- Counterexample for C6 as frozen: a negative N yields a backward date
and N = 0 yields the same date, never `absent`. -/
theorem every_n_days_counterexample :
    next_date_for_repeat (some ⟨2024, 6, 10⟩)
        (some ("every -3 days".toList)) = some ⟨2024, 6, 7⟩ ∧
    next_date_for_repeat (some ⟨2024, 6, 10⟩)
        (some ("every 0 days".toList)) = some ⟨2024, 6, 10⟩ := by
  decide

/-- Witness for C6 (amended) with N = 5 and N = -3 from 2024-06-10. -/
theorem every_n_days_rule_witness :
    (next_date_for_repeat (some ⟨2024, 6, 10⟩)
        (some (("every ".toList) ++ padDigits 1 5 ++ (" days".toList))) =
      some (addDays ⟨2024, 6, 10⟩ 5)) ∧
    (next_date_for_repeat (some ⟨2024, 6, 10⟩)
        (some (("every ".toList) ++ ('-' :: padDigits 1 3) ++
          (" days".toList))) =
      some (subDays ⟨2024, 6, 10⟩ 3)) :=
  ⟨(every_n_days_rule ⟨2024, 6, 10⟩ 1 5 (by norm_num) (by norm_num)).1,
    (every_n_days_rule ⟨2024, 6, 10⟩ 1 3 (by norm_num) (by norm_num)).2.1
      (by norm_num)⟩

-- ===== Helper lemmas: rule normalization and the weekday search =====

theorem pyWS_lowerChar (c : Char) : pyWS (lowerChar c) = pyWS c := by
  unfold lowerChar
  split_ifs with h
  · have hval : (Char.ofNat (c.toNat + 32)).toNat = c.toNat + 32 := by
      unfold Char.ofNat
      rw [dif_pos (Or.inl (by omega))]
      rfl
    unfold pyWS
    rw [hval]
    have hL : ∀ m, 97 ≤ m → m ≤ 122 →
        ((m == 32 || m == 9 || m == 10 || m == 13 || m == 11 || m == 12)
          = false) := by
      intro m h1 h2
      simp only [Bool.or_eq_false_iff, beq_eq_false_iff_ne, ne_eq]
      omega
    have hR : ∀ m, 65 ≤ m → m ≤ 90 →
        ((m == 32 || m == 9 || m == 10 || m == 13 || m == 11 || m == 12)
          = false) := by
      intro m h1 h2
      simp only [Bool.or_eq_false_iff, beq_eq_false_iff_ne, ne_eq]
      omega
    rw [hL _ (by omega) (by omega), hR _ (by omega) (by omega)]
  · rfl

theorem dropWhile_head_false (p : Char → Bool) (l : List Char) (h t : _)
    (he : l.dropWhile p = h :: t) : p h = false := by
  induction l with
  | nil => simp at he
  | cons a as ih =>
    rw [List.dropWhile_cons] at he
    by_cases hp : p a = true
    · rw [if_pos hp] at he
      exact ih he
    · rw [if_neg hp] at he
      cases he
      exact Bool.eq_false_iff.mpr hp

theorem dropWhile_idem (p : Char → Bool) (l : List Char) :
    (l.dropWhile p).dropWhile p = l.dropWhile p := by
  cases he : l.dropWhile p with
  | nil => rfl
  | cons h t =>
    rw [List.dropWhile_cons, dropWhile_head_false p l h t he]
    simp

theorem dropWhile_getLast (p : Char → Bool) (l : List Char)
    (h : l.dropWhile p ≠ []) : (l.dropWhile p).getLast? = l.getLast? := by
  induction l with
  | nil => simp at h
  | cons a as ih =>
    rw [List.dropWhile_cons]
    by_cases hp : p a = true
    · rw [List.dropWhile_cons, if_pos hp] at h
      rw [if_pos hp, ih h]
      have has : as ≠ [] := by
        intro he
        rw [he] at h
        simp at h
      cases as with
      | nil => exact absurd rfl has
      | cons b bs => rfl
    · rw [if_neg hp]

theorem lowerStr_trimChars_comm (l : List Char) :
    trimChars (lowerStr l) = lowerStr (trimChars l) := by
  unfold trimChars lowerStr
  have hdw : ∀ x : List Char,
      x.dropWhile (pyWS ∘ lowerChar) = x.dropWhile pyWS := by
    intro x
    congr 1
    funext c
    exact pyWS_lowerChar c
  rw [List.dropWhile_map, hdw]
  rw [show (List.map lowerChar (l.dropWhile pyWS)).reverse =
    List.map lowerChar (l.dropWhile pyWS).reverse from
    (List.map_reverse _ _).symm]
  rw [List.dropWhile_map, hdw, List.map_reverse]

theorem trimChars_idem (l : List Char) :
    trimChars (trimChars l) = trimChars l := by
  unfold trimChars
  generalize hu : l.dropWhile pyWS = u
  generalize hv : u.reverse.dropWhile pyWS = v
  have h1 : v.reverse.dropWhile pyWS = v.reverse := by
    cases hw : v.reverse with
    | nil => rfl
    | cons h t =>
      have hvne : v ≠ [] := by
        intro he
        rw [he] at hw
        simp at hw
      have hh : v.getLast? = some h := by
        rw [← List.head?_reverse, hw]
        rfl
      have hlast : v.getLast? = u.head? := by
        rw [← hv, dropWhile_getLast pyWS u.reverse (by rw [hv]; exact hvne),
          List.getLast?_reverse]
      have hhead : u.head? = some h := by rw [← hlast, hh]
      obtain ⟨t', rfl⟩ : ∃ t', u = h :: t' := by
        cases u with
        | nil => simp at hhead
        | cons a b =>
          simp only [List.head?_cons, Option.some.injEq] at hhead
          exact ⟨b, by rw [hhead]⟩
      have hfalse : pyWS h = false := dropWhile_head_false pyWS l h t' hu
      rw [List.dropWhile_cons, hfalse]
      simp
  have h2 : v.dropWhile pyWS = v := by
    rw [← hv]
    exact dropWhile_idem pyWS u.reverse
  rw [h1, List.reverse_reverse, h2]

theorem trimChars_lower_trim (l : List Char) :
    trimChars (lowerStr (trimChars l)) = lowerStr (trimChars l) := by
  rw [lowerStr_trimChars_comm, trimChars_idem]

theorem searchWeekday_zero (d : Date) (wds : List Nat) (i : Nat) :
    searchWeekday d wds 0 i = none := rfl

theorem searchWeekday_succ (d : Date) (wds : List Nat) (fuel i : Nat) :
    searchWeekday d wds (fuel + 1) i =
      if wkday (addDays d i) ∈ wds then some (addDays d i)
      else searchWeekday d wds fuel (i + 1) := rfl

theorem searchWeekday_none (d : Date) (wds : List Nat) :
    ∀ fuel i, (∀ j, i ≤ j → j < i + fuel → wkday (addDays d j) ∉ wds) →
      searchWeekday d wds fuel i = none := by
  intro fuel
  induction fuel with
  | zero => intro i _; rfl
  | succ fuel ih =>
    intro i h
    rw [searchWeekday_succ]
    rw [if_neg (h i (le_refl i) (by omega))]
    exact ih (i + 1) (fun j h1 h2 => h j (by omega) (by omega))

theorem searchWeekday_found (d : Date) (wds : List Nat) :
    ∀ fuel i j, i ≤ j → j < i + fuel → wkday (addDays d j) ∈ wds →
      (∀ k, i ≤ k → k < j → wkday (addDays d k) ∉ wds) →
      searchWeekday d wds fuel i = some (addDays d j) := by
  intro fuel
  induction fuel with
  | zero => intro i j h1 h2; omega
  | succ fuel ih =>
    intro i j h1 h2 hmem hmin
    rw [searchWeekday_succ]
    by_cases hij : i = j
    · rw [if_pos (hij ▸ hmem), hij]
    · rw [if_neg (hmin i (le_refl i) (by omega))]
      exact ih (i + 1) j (by omega) (by omega) hmem
        (fun k hk1 hk2 => hmin k (by omega) hk2)

theorem splitOnAux_head (c : Char) :
    ∀ (l acc : List Char), ∃ rest, splitOnAux c l acc =
      (acc.reverse ++ l.takeWhile (fun x => !(x = c))) :: rest := by
  intro l
  induction l with
  | nil => intro acc; exact ⟨[], by simp [splitOnAux_nil]⟩
  | cons x xs ih =>
    intro acc
    rw [splitOnAux_cons]
    by_cases hx : x = c
    · refine ⟨splitOnAux c xs [], ?_⟩
      rw [if_pos hx, List.takeWhile_cons]
      rw [show (!decide (x = c)) = false by simp [hx]]
      simp
    · obtain ⟨rest, hrest⟩ := ih (x :: acc)
      refine ⟨rest, ?_⟩
      rw [if_neg hx, hrest, List.takeWhile_cons]
      rw [show (!decide (x = c)) = true by simp [hx]]
      simp

theorem trimChars_head_keep (c : Char) (t : List Char) (h : pyWS c = false) :
    ∃ u, trimChars (c :: t) = c :: u := by
  unfold trimChars
  rw [List.dropWhile_cons, h]
  simp only [Bool.false_eq_true, if_false]
  have : ∃ v, (c :: t).reverse.dropWhile pyWS = v ++ [c] := by
    rw [show (c :: t).reverse = t.reverse ++ [c] by simp]
    generalize t.reverse = w
    induction w with
    | nil =>
      refine ⟨[], ?_⟩
      rw [List.nil_append, List.dropWhile_cons, h]
      simp
    | cons a as ih =>
      rw [List.cons_append, List.dropWhile_cons]
      by_cases ha : pyWS a = true
      · rw [if_pos ha]
        exact ih
      · rw [if_neg ha]
        exact ⟨a :: as, rfl⟩
  obtain ⟨v, hv⟩ := this
  rw [hv]
  exact ⟨v.reverse, by simp⟩

theorem wkdLookup_none_of_head_e (u : List Char) :
    wkdLookup ('e' :: u) = none := by
  unfold wkdLookup
  iterate 14 rw [if_neg (by
    intro h
    injection h with h1 h2
    exact absurd h1 (by decide))]

theorem startsWithChars_exists (p l : List Char) :
    startsWithChars p l = true ↔ ∃ r, l = p ++ r := by
  induction p generalizing l with
  | nil => simp [startsWithChars]
  | cons c t ih =>
    cases l with
    | nil => simp [startsWithChars]
    | cons x xs =>
      show (decide (c = x) && startsWithChars t xs) = true ↔ _
      rw [Bool.and_eq_true, decide_eq_true_eq, ih]
      constructor
      · rintro ⟨rfl, r, rfl⟩
        exact ⟨r, rfl⟩
      · rintro ⟨r, hr⟩
        injection hr with h1 h2
        exact ⟨h1.symm, r, h2⟩

theorem weekday_rule_eval (d : Date) (rule0 : List Char)
    (htoks : ∀ t ∈ ruleTokens rule0, (wkdLookup t).isSome = true) :
    next_date_for_repeat (some d) (some rule0) =
      searchWeekday d (ruleWeekdays rule0) 14 1 := by
  have hne0 : rule0.isEmpty = false := by
    cases rule0 with
    | nil => exact absurd (htoks [] (by decide)) (by decide)
    | cons a b => rfl
  have hdaily : lowerStr (trimChars rule0) ≠ ("daily".toList) := by
    intro h
    have hmem : ("daily".toList) ∈ ruleTokens rule0 := by
      unfold ruleTokens
      rw [h]
      decide
    exact absurd (htoks _ hmem) (by decide)
  have hweekly : lowerStr (trimChars rule0) ≠ ("weekly".toList) := by
    intro h
    have hmem : ("weekly".toList) ∈ ruleTokens rule0 := by
      unfold ruleTokens
      rw [h]
      decide
    exact absurd (htoks _ hmem) (by decide)
  have hmonthly : lowerStr (trimChars rule0) ≠ ("monthly".toList) := by
    intro h
    have hmem : ("monthly".toList) ∈ ruleTokens rule0 := by
      unfold ruleTokens
      rw [h]
      decide
    exact absurd (htoks _ hmem) (by decide)
  have hsw : startsWithChars ("every ".toList) (lowerStr (trimChars rule0)) =
      false := by
    cases hsw' : startsWithChars ("every ".toList) (lowerStr (trimChars rule0))
    · rfl
    · exfalso
      obtain ⟨r, hr⟩ := (startsWithChars_exists _ _).mp hsw'
      obtain ⟨rest, hsplit⟩ := splitOnAux_head ',' (lowerStr (trimChars rule0)) []
      rw [hr] at hsplit
      rw [show ("every ".toList) ++ r = 'e' :: (("very ".toList) ++ r)
        from rfl] at hsplit
      rw [List.takeWhile_cons] at hsplit
      rw [show (!decide (('e' : Char) = ',')) = true by decide] at hsplit
      simp only [List.nil_append, List.reverse_nil, if_true] at hsplit
      obtain ⟨u1, hu1⟩ := trimChars_head_keep 'e'
        ((("very ".toList) ++ r).takeWhile (fun x => !(x = ','))) (by decide)
      have hmem : trimChars ('e' ::
          ((("very ".toList) ++ r).takeWhile (fun x => !(x = ',')))) ∈
          ruleTokens rule0 := by
        unfold ruleTokens splitOnC
        rw [hr, show ("every ".toList ++ r) = 'e' :: (("very ".toList) ++ r)
          from rfl, hsplit]
        exact List.mem_map_of_mem _ (List.mem_cons_self _ _)
      rw [hu1] at hmem
      have := htoks _ hmem
      rw [wkdLookup_none_of_head_e u1] at this
      simp at this
  have hguard : ((lowerStr (trimChars rule0)).contains ',' ||
      (wkdLookup (lowerStr (trimChars rule0))).isSome) = true := by
    by_cases hc : (lowerStr (trimChars rule0)).contains ',' = true
    · rw [hc]
      rfl
    · have hnc : ∀ x ∈ lowerStr (trimChars rule0), x ≠ ',' := by
        intro x hx hxe
        apply hc
        rw [hxe] at hx
        exact (List.elem_iff.mpr hx)
      have hsingle : splitOnC ',' (lowerStr (trimChars rule0)) =
          [lowerStr (trimChars rule0)] := by
        unfold splitOnC
        rw [splitOnAux_no_sep ',' _ [] hnc]
        rfl
      have hmem : lowerStr (trimChars rule0) ∈ ruleTokens rule0 := by
        unfold ruleTokens
        rw [hsingle]
        simp only [List.map_cons, List.map_nil]
        rw [trimChars_lower_trim]
        exact List.mem_singleton.mpr rfl
      rw [htoks _ hmem]
      simp
  have htne : ∃ t0 rest, splitOnC ',' (lowerStr (trimChars rule0)) =
      t0 :: rest := by
    obtain ⟨rest, hsplit⟩ := splitOnAux_head ',' (lowerStr (trimChars rule0)) []
    exact ⟨_, rest, hsplit⟩
  have hwds : ((((splitOnC ',' (lowerStr (trimChars rule0))).map
      trimChars).filterMap wkdLookup).isEmpty) = false := by
    obtain ⟨t0, rest, hsplit⟩ := htne
    have hmem : trimChars t0 ∈ ruleTokens rule0 := by
      unfold ruleTokens
      rw [hsplit]
      exact List.mem_map_of_mem _ (List.mem_cons_self _ _)
    have hsome := htoks _ hmem
    obtain ⟨v, hvv⟩ := Option.isSome_iff_exists.mp hsome
    rw [hsplit]
    simp only [List.map_cons, List.filterMap_cons, hvv]
    rfl
  simp only [next_date_for_repeat]
  rw [hne0]
  simp only [Bool.false_eq_true, if_false]
  rw [if_neg hdaily, if_neg hweekly, if_neg hmonthly]
  rw [hsw]
  simp only [Bool.false_eq_true, if_false]
  rw [hguard]
  simp only [if_true]
  rw [hwds]
  simp only [Bool.false_eq_true, if_false]
  rfl

/-- C5: for a rule whose comma-separated tokens are all weekday names,
the result is the nearest date strictly after the base date whose weekday
is in the named set (searching at most 14 days ahead, absent if none in
that window matches); in particular from a Friday the rule `mon` yields
the date three days later, the following Monday. -/
theorem weekday_list_rule :
    (∀ (d : Date) (rule0 : List Char), validDate d = true →
      (∀ t ∈ ruleTokens rule0, (wkdLookup t).isSome = true) →
      (∀ j, 1 ≤ j → j ≤ 14 → wkday (addDays d j) ∈ ruleWeekdays rule0 →
        (∀ k, 1 ≤ k → k < j → wkday (addDays d k) ∉ ruleWeekdays rule0) →
        next_date_for_repeat (some d) (some rule0) = some (addDays d j)) ∧
      ((∀ j, 1 ≤ j → j ≤ 14 → wkday (addDays d j) ∉ ruleWeekdays rule0) →
        next_date_for_repeat (some d) (some rule0) = none)) ∧
    (∀ d : Date, validDate d = true → wkday d = 4 →
      next_date_for_repeat (some d) (some ("mon".toList)) =
        some (addDays d 3)) := by
  constructor
  · intro d rule0 hv htoks
    constructor
    · intro j h1 h14 hmem hmin
      rw [weekday_rule_eval d rule0 htoks]
      exact searchWeekday_found d _ 14 1 j h1 (by omega) hmem
        (fun k hk1 hk2 => hmin k hk1 hk2)
    · intro hnone
      rw [weekday_rule_eval d rule0 htoks]
      exact searchWeekday_none d _ 14 1
        (fun j hj1 hj2 => hnone j hj1 (by omega))
  · intro d hv hfri
    have heval : next_date_for_repeat (some d) (some ("mon".toList)) =
        searchWeekday d [0] 14 1 := rfl
    rw [heval]
    apply searchWeekday_found d [0] 14 1 3 (by omega) (by omega)
    · rw [wkday_addDays d 3 hv, hfri]
      decide
    · intro k hk1 hk2
      rw [wkday_addDays d k hv, hfri]
      interval_cases k <;> decide

/-- Witness for C5: from Monday 2024-06-03 the rule `tue,fri` picks the
next day, and from Friday 2024-06-07 the rule `mon` picks the date three
days later. -/
theorem weekday_list_rule_witness :
    next_date_for_repeat (some ⟨2024, 6, 3⟩) (some ("tue,fri".toList)) =
      some (addDays ⟨2024, 6, 3⟩ 1) ∧
    next_date_for_repeat (some ⟨2024, 6, 7⟩) (some ("mon".toList)) =
      some (addDays ⟨2024, 6, 7⟩ 3) :=
  ⟨(weekday_list_rule.1 ⟨2024, 6, 3⟩ _ (by decide) (by decide)).1 1
      (by norm_num) (by norm_num) (by decide) (by omega),
    weekday_list_rule.2 ⟨2024, 6, 7⟩ (by decide) (by decide)⟩

-- ===== Helper lemmas: identifier resolution =====

theorem findFirstIdx_sound (p : Task → Bool) :
    ∀ (tasks : List Task) (i0 i : Nat) (t : Task),
      findFirstIdx p tasks i0 = some (t, i) →
      p t = true ∧ i0 ≤ i ∧ tasks[i - i0]? = some t := by
  intro tasks
  induction tasks with
  | nil => intro i0 i t h; simp [findFirstIdx] at h
  | cons a as ih =>
    intro i0 i t h
    unfold findFirstIdx at h
    by_cases hp : p a = true
    · rw [if_pos hp] at h
      cases h
      exact ⟨hp, le_refl _, by simp⟩
    · rw [if_neg hp] at h
      obtain ⟨hpt, hle, hget⟩ := ih (i0 + 1) i t h
      refine ⟨hpt, by omega, ?_⟩
      have : i - i0 = (i - (i0 + 1)) + 1 := by omega
      rw [this]
      simpa using hget

theorem substrMatches_sound (needle : List Char) :
    ∀ (tasks : List Task) (i0 : Nat) (m : Task × Nat),
      m ∈ substrMatches needle tasks i0 →
      hasSub needle (lowerStr m.1.item) = true ∧ i0 ≤ m.2 ∧
        tasks[m.2 - i0]? = some m.1 := by
  intro tasks
  induction tasks with
  | nil => intro i0 m h; simp [substrMatches] at h
  | cons a as ih =>
    intro i0 m h
    unfold substrMatches at h
    by_cases hp : hasSub needle (lowerStr a.item) = true
    · rw [if_pos hp] at h
      rcases List.mem_cons.mp h with rfl | h
      · exact ⟨hp, le_refl _, by simp⟩
      · obtain ⟨h1, h2, h3⟩ := ih (i0 + 1) m h
        refine ⟨h1, by omega, ?_⟩
        have : m.2 - i0 = (m.2 - (i0 + 1)) + 1 := by omega
        rw [this]
        simpa using h3
    · rw [if_neg hp] at h
      obtain ⟨h1, h2, h3⟩ := ih (i0 + 1) m h
      refine ⟨h1, by omega, ?_⟩
      have : m.2 - i0 = (m.2 - (i0 + 1)) + 1 := by omega
      rw [this]
      simpa using h3

theorem resolveByIdOrName_found (tasks : List Task) (ident : List Char)
    (t : Task) (i : Nat) (h : resolveByIdOrName tasks ident = .found t i) :
    tasks[i]? = some t := by
  unfold resolveByIdOrName at h
  split at h
  next t0 i0 hfi =>
    cases h
    have := findFirstIdx_sound _ tasks 0 i t hfi
    simpa using this.2.2
  next hfi =>
    split at h
    next m hm =>
      injection h with h1 h2
      subst h1
      subst h2
      have := substrMatches_sound _ tasks 0 m (by rw [hm]; simp)
      simpa using this.2.2
    next hm => simp at h
    next ms hm1 hm2 hm3 => simp at h

theorem find_found_sound (tasks : List Task) (ident0 : List Char)
    (t : Task) (i : Nat)
    (h : find_task_by_identifier tasks ident0 = .found t i) :
    tasks[i]? = some t := by
  unfold find_task_by_identifier at h
  by_cases hemp : (trimChars ident0).isEmpty = true
  · rw [if_pos hemp] at h
    simp at h
  · rw [if_neg hemp] at h
    simp only [] at h
    split at h
    next t0 i0 hby =>
      cases h
      split at hby
      · split at hby
        · split at hby
          next t1 hget =>
            cases hby
            exact hget
          next hget => simp at hby
        · simp at hby
      · simp at hby
    next hby => exact resolveByIdOrName_found tasks _ t i h

theorem resolveOpt_sound (tasks : List Task) (ident : List Char) (t : Task)
    (i : Nat) (h : resolveOpt tasks ident = some (t, i)) :
    tasks[i]? = some t := by
  unfold resolveOpt at h
  split at h
  next t0 i0 hf =>
    cases h
    exact find_found_sound tasks ident t i hf
  next => simp at h

theorem padDigits_isEmpty_false (w n : Nat) (hw : 1 ≤ w) :
    (padDigits w n).isEmpty = false := by
  cases hE : padDigits w n with
  | nil =>
    have := length_padDigits w n
    rw [hE] at this
    simp at this
    omega
  | cons a t => rfl

theorem trimChars_padDigits (w n : Nat) :
    trimChars (padDigits w n) = padDigits w n :=
  trimChars_eq_self _ (fun c hc => pyWS_not_digit c (mem_padDigits _ _ _ hc))

theorem isdigitStr_padDigits (w n : Nat) (hw : 1 ≤ w) :
    isdigitStr (padDigits w n) = true := by
  unfold isdigitStr
  rw [padDigits_isEmpty_false w n hw]
  simp only [Bool.not_false, Bool.true_and, List.all_eq_true]
  intro c hc
  obtain ⟨k, rfl⟩ := mem_padDigits _ _ _ hc
  exact isDigit_digitChar k

/-- Counterexample for C3 as frozen: on a one-task store whose item
contains the digit 2, the out-of-range index text `2` does not yield
no-match — it falls through to substring matching and resolves the task. -/
theorem resolve_out_of_range_counterexample :
    find_task_by_identifier [taskD] ("2".toList) =
      ResolveRes.found taskD 0 ∧
    find_task_by_identifier [taskD] ("2".toList) ≠ ResolveRes.notFound := by
  decide

/-- C3 (amended): resolution tries, in order: (a) all-digit text as a
1-based position when in range, while an out-of-range or zero index falls
through to the later steps instead of failing; (b) exact id match; (c)
case-insensitive substring match on the item, where zero matches is
no-match, exactly one match resolves, and several matches are ambiguous, a
result distinct from no-match. -/
theorem resolve_order :
    (∀ (tasks : List Task) (w n : Nat) (t : Task), 1 ≤ w → n < 10 ^ w →
      1 ≤ n → tasks[n - 1]? = some t →
      find_task_by_identifier tasks (padDigits w n) =
        ResolveRes.found t (n - 1)) ∧
    (∀ (tasks : List Task) (w n : Nat), 1 ≤ w → n < 10 ^ w →
      (n = 0 ∨ tasks.length < n) →
      find_task_by_identifier tasks (padDigits w n) =
        resolveByIdOrName tasks (padDigits w n)) ∧
    (∀ (tasks : List Task) (ident : List Char) (t : Task) (i : Nat),
      findFirstIdx (fun x => x.id = ident) tasks 0 = some (t, i) →
      resolveByIdOrName tasks ident = ResolveRes.found t i ∧
        t.id = ident ∧ tasks[i]? = some t) ∧
    (∀ (tasks : List Task) (ident : List Char),
      findFirstIdx (fun x => x.id = ident) tasks 0 = none →
      (substrMatches (lowerStr ident) tasks 0 = [] →
        resolveByIdOrName tasks ident = ResolveRes.notFound) ∧
      (∀ m, substrMatches (lowerStr ident) tasks 0 = [m] →
        resolveByIdOrName tasks ident = ResolveRes.found m.1 m.2 ∧
          hasSub (lowerStr ident) (lowerStr m.1.item) = true ∧
          tasks[m.2]? = some m.1) ∧
      (∀ a b rest, substrMatches (lowerStr ident) tasks 0 = a :: b :: rest →
        resolveByIdOrName tasks ident =
          ResolveRes.ambiguous (a :: b :: rest) ∧
          ResolveRes.ambiguous (a :: b :: rest) ≠ ResolveRes.notFound)) := by
  refine ⟨?_, ?_, ?_, ?_⟩
  · intro tasks w n t hw hn h1 hget
    have hlen : n - 1 < tasks.length := by
      have := List.getElem?_eq_some_iff.mp hget
      exact this.1
    simp only [find_task_by_identifier]
    rw [trimChars_padDigits, padDigits_isEmpty_false w n hw]
    simp only [Bool.false_eq_true, if_false]
    rw [isdigitStr_padDigits w n hw]
    simp only [if_true, readNat_padDigits w n hn]
    rw [if_pos ⟨by omega, by push_cast; omega⟩]
    rw [show ((n : Int) - 1).toNat = n - 1 by omega]
    rw [hget]
  · intro tasks w n hw hn hout
    simp only [find_task_by_identifier]
    rw [trimChars_padDigits, padDigits_isEmpty_false w n hw]
    simp only [Bool.false_eq_true, if_false]
    rw [isdigitStr_padDigits w n hw]
    simp only [if_true, readNat_padDigits w n hn]
    rw [if_neg (by push_cast; omega)]
  · intro tasks ident t i hf
    obtain ⟨hp, _, hget⟩ := findFirstIdx_sound _ tasks 0 i t hf
    refine ⟨?_, ?_, ?_⟩
    · unfold resolveByIdOrName
      rw [hf]
    · simpa using hp
    · simpa using hget
  · intro tasks ident hf
    refine ⟨?_, ?_, ?_⟩
    · intro h0
      unfold resolveByIdOrName
      rw [hf, h0]
    · intro m hm
      obtain ⟨hsub, _, hget⟩ := substrMatches_sound _ tasks 0 m
        (by rw [hm]; simp)
      refine ⟨?_, hsub, by simpa using hget⟩
      unfold resolveByIdOrName
      rw [hf, hm]
    · intro a b rest hm
      refine ⟨?_, by simp⟩
      unfold resolveByIdOrName
      rw [hf, hm]

/-- Witness for C3 (amended): an in-range index on a two-task store, an
exact id match, and a unique substring match. -/
theorem resolve_order_witness :
    find_task_by_identifier [taskW, taskD] (padDigits 1 2) =
      ResolveRes.found taskD 1 ∧
    resolveByIdOrName [taskW, taskD] ("id-d".toList) =
      ResolveRes.found taskD 1 ∧
    resolveByIdOrName [taskW, taskD] ("plants".toList) =
      ResolveRes.found taskW 0 :=
  ⟨resolve_order.1 [taskW, taskD] 1 2 taskD (by norm_num) (by norm_num)
      (by norm_num) (by decide),
    (resolve_order.2.2.1 [taskW, taskD] ("id-d".toList) taskD 1
      (by decide)).1,
    ((resolve_order.2.2.2 [taskW, taskD] ("plants".toList) (by decide)).2.1
      (taskW, 0) (by decide)).1⟩

/-- C10: completing a repeating task with an empty date never synthesizes
a new task — the store keeps the same membership, with only the resolved
task's completed flag flipped, and the pre-state pushed for undo. -/
theorem toggle_empty_date_frame (depth : Nat) (tasks : List Task)
    (stack : List (List Task)) (ident fid created : List Char) (t : Task)
    (i : Nat) (r : List Char)
    (hres : resolveOpt tasks ident = some (t, i))
    (hc : t.completed = false) (hr : t.rep = some r) (hdate : t.date = []) :
    toggle_done depth ident fid created ⟨tasks, stack⟩ =
      { tasks := tasks.set i { t with completed := true },
        stack := push_undo depth stack tasks } := by
  simp only [toggle_done, hres]
  simp only [hc, Bool.not_false]
  simp only [hr, hdate, if_true]
  split_ifs with hre
  · rfl
  · rfl

/-- Witness for C10: a dateless daily-repeating task toggled to done. -/
theorem toggle_empty_date_frame_witness :
    toggle_done 10 ("1".toList) ("id-new".toList) ("t1".toList)
        ⟨[taskN], []⟩ =
      { tasks := [taskN].set 0 { taskN with completed := true },
        stack := push_undo 10 [] [taskN] } :=
  toggle_empty_date_frame 10 [taskN] [] ("1".toList) ("id-new".toList)
    ("t1".toList) taskN 0 ("daily".toList) (by decide) (by decide)
    (by decide) (by decide)

/-- Counterexample for C1 as frozen: a pending task with the non-absent
repeat rule `yearly` and a present date, toggled to completed, appends
nothing — the store length stays 1 — because no next occurrence exists. -/
theorem toggle_spawn_counterexample :
    ((toggle_done 10 ("1".toList) ("id-new".toList) ("t1".toList)
        ⟨[taskY], []⟩).tasks).length = 1 ∧
    taskY.rep = some ("yearly".toList) ∧
    taskY.date = ("2024-06-01".toList) ∧
    taskY.completed = false := by
  decide

/-- C1 (amended): completing a repeating task whose rule produces a next
occurrence appends exactly one synthesized task carrying over the item,
priority, rule and notes with a fresh id and the computed date, leaves the
original completed with its date unchanged, and pushes the pre-state; the
appended id collides with no other task; and toggling a task back to
not-completed appends nothing. -/
theorem toggle_spawn :
    (∀ (depth : Nat) (tasks : List Task) (stack : List (List Task))
        (ident fid created : List Char) (t : Task) (i : Nat) (r : List Char)
        (dd nd : Date),
      resolveOpt tasks ident = some (t, i) →
      t.completed = false →
      t.rep = some r →
      parse_date t.date = some dd →
      next_date_for_repeat (some dd) (some r) = some nd →
      validDate nd = true → nd.year ≤ 9999 →
      trimChars t.item = t.item →
      lowerStr t.priority = t.priority → t.priority ≠ [] →
      toggle_done depth ident fid created ⟨tasks, stack⟩ =
        { tasks := tasks.set i { t with completed := true } ++
            [{ id := fid, item := t.item, date := dateIso nd,
               priority := t.priority, completed := false, rep := some r,
               notes := t.notes, created := created }],
          stack := push_undo depth stack tasks }) ∧
    (∀ (tasks : List Task) (ident fid : List Char) (t : Task) (i : Nat),
      resolveOpt tasks ident = some (t, i) →
      fid ∉ tasks.map (fun x => x.id) →
      ∀ x ∈ tasks.set i { t with completed := true }, x.id ≠ fid) ∧
    (∀ (depth : Nat) (tasks : List Task) (stack : List (List Task))
        (ident fid created : List Char) (t : Task) (i : Nat),
      resolveOpt tasks ident = some (t, i) →
      t.completed = true →
      toggle_done depth ident fid created ⟨tasks, stack⟩ =
        { tasks := tasks.set i { t with completed := false },
          stack := push_undo depth stack tasks }) := by
  refine ⟨?_, ?_, ?_⟩
  · intro depth tasks stack ident fid created t i r dd nd hres hc hr hparse
      hnext hvn hy hitem hpri hpne
    have hrne : r.isEmpty = false := by
      cases hre : r.isEmpty
      · rfl
      · exfalso
        have hrnil : r = [] := by
          cases r with
          | nil => rfl
          | cons a b => simp at hre
        rw [hrnil] at hnext
        simp [next_date_for_repeat] at hnext
    have hnt : new_task t.item (dateIso nd) t.priority (some r) t.notes fid
        created =
        { id := fid, item := t.item, date := dateIso nd,
          priority := t.priority, completed := false, rep := some r,
          notes := t.notes, created := created } := by
      unfold new_task
      rw [parse_dateIso nd hvn hy]
      have hpe : t.priority.isEmpty = false := by
        cases hpp : t.priority with
        | nil => exact absurd hpp hpne
        | cons a b => rfl
      rw [hitem, hpe]
      simp only [Bool.false_eq_true, if_false]
      rw [hpri]
      rfl
    simp only [toggle_done, hres]
    simp only [hc, Bool.not_false]
    simp only [hr, hrne, if_true]
    simp only [Bool.false_eq_true, if_false]
    simp only [hparse, hnext]
    rw [hnt]
  · intro tasks ident fid t i hres hfresh x hx hxid
    rcases List.mem_or_eq_of_mem_set hx with hx' | rfl
    · exact hfresh (by rw [← hxid]; exact List.mem_map_of_mem _ hx')
    · have hmem : t ∈ tasks :=
        List.getElem?_mem (resolveOpt_sound tasks ident t i hres)
      apply hfresh
      rw [← hxid]
      show t.id ∈ tasks.map (fun x => x.id)
      exact List.mem_map_of_mem _ hmem
  · intro depth tasks stack ident fid created t i hres hc
    simp only [toggle_done, hres]
    simp only [hc, Bool.not_true]
    simp only [Bool.false_eq_true, if_false]

/-- Witness for C1 (amended): completing the weekly task dated 2024-06-01
spawns its 2024-06-08 occurrence, and un-completing a completed copy
appends nothing. -/
theorem toggle_spawn_witness :
    toggle_done 10 ("1".toList) ("id-new".toList) ("t1".toList)
        ⟨[taskW], []⟩ =
      { tasks := [taskW].set 0 { taskW with completed := true } ++
          [{ id := ("id-new".toList), item := taskW.item,
             date := dateIso ⟨2024, 6, 8⟩, priority := taskW.priority,
             completed := false, rep := some ("weekly".toList),
             notes := taskW.notes, created := ("t1".toList) }],
        stack := push_undo 10 [] [taskW] } ∧
    toggle_done 10 ("1".toList) ("id-new".toList) ("t1".toList)
        ⟨[{ taskW with completed := true }], []⟩ =
      { tasks := [{ taskW with completed := true }].set 0
          { taskW with completed := false },
        stack := push_undo 10 [] [{ taskW with completed := true }] } :=
  ⟨toggle_spawn.1 10 [taskW] [] ("1".toList) ("id-new".toList) ("t1".toList)
      taskW 0 ("weekly".toList) ⟨2024, 6, 1⟩ ⟨2024, 6, 8⟩ (by decide)
      (by decide) (by decide) (by decide) (by decide) (by decide) (by decide)
      (by decide) (by decide) (by decide),
    toggle_spawn.2.2 10 [{ taskW with completed := true }] [] ("1".toList)
      ("id-new".toList) ("t1".toList) { taskW with completed := true } 0
      (by decide) (by decide)⟩

-- ===== Helper lemmas: mutation commands push before mutating =====

theorem undo_after_push (depth : Nat) (tasks t' : List Task)
    (stack : List (List Task)) (hd : 1 ≤ depth) :
    (undo_step ⟨t', push_undo depth stack tasks⟩).tasks = tasks := by
  unfold undo_step
  rw [push_undo_getLast depth stack tasks hd]

/-- C2: every mutating command whose validations pass pushes only copies
of the pre-mutation task list (once, or twice for add, since `main`
pushes before `add_item` pushes again) before mutating, so a single undo
restores the pre-mutation task list; in particular add(A), add(B), one
undo leaves exactly the single task A. -/
theorem mutation_push_and_undo :
    (∀ (depth : Nat) (op : Op) (s : AppState), 1 ≤ depth →
      opOk op s.tasks = true →
      ((applyOp depth op s).stack.getLast? = some s.tasks ∧
       ((applyOp depth op s).stack = push_undo depth s.stack s.tasks ∨
        (applyOp depth op s).stack =
          push_undo depth (push_undo depth s.stack s.tasks) s.tasks) ∧
       (undo_step (applyOp depth op s)).tasks = s.tasks)) ∧
    (undo_step (applyOp 10
        (Op.addO ("b".toList) [] ("low".toList) [] [] ("idB".toList)
          ("tB".toList))
        (applyOp 10
          (Op.addO ("a".toList) [] ("low".toList) [] [] ("idA".toList)
            ("tA".toList))
          ⟨[], []⟩))).tasks =
      [new_task ("a".toList) [] ("low".toList) none [] ("idA".toList)
        ("tA".toList)] := by
  constructor
  · intro depth op s hd hok
    obtain ⟨tasks, stack⟩ := s
    cases op with
    | addO item dateStr pri rep notes fid created =>
      simp only [opOk, Bool.and_eq_true, Bool.not_eq_true',
        Bool.or_eq_true_iff] at hok
      obtain ⟨⟨h1, h2⟩, h3⟩ := hok
      have hdc : (!(trimChars dateStr).isEmpty &&
          (parse_date (trimChars dateStr)).isNone) = false := by
        rcases h3 with h | h
        · rw [h]
          rfl
        · obtain ⟨v, hv⟩ := Option.isSome_iff_exists.mp h
          rw [hv]
          simp
      simp only [applyOp, add_item]
      rw [h1]
      simp only [Bool.false_eq_true, if_false]
      rw [h2]
      simp only [Bool.false_eq_true, if_false]
      rw [hdc]
      simp only [Bool.false_eq_true, if_false]
      exact ⟨push_undo_getLast depth _ _ hd, Or.inr (by first | trivial | rfl),
        undo_after_push depth tasks _ _ hd⟩
    | removeO ident confirm =>
      simp only [opOk, Bool.and_eq_true] at hok
      obtain ⟨hre, hcf⟩ := hok
      obtain ⟨⟨t, i⟩, hres⟩ := Option.isSome_iff_exists.mp hre
      simp only [applyOp, remove_item, hres]
      rw [hcf]
      simp only [Bool.not_true, Bool.false_eq_true, if_false]
      exact ⟨push_undo_getLast depth _ _ hd, Or.inl (by first | trivial | rfl),
        undo_after_push depth tasks _ _ hd⟩
    | renameO ident newName =>
      simp only [opOk, Bool.and_eq_true, Bool.not_eq_true'] at hok
      obtain ⟨hre, hnn⟩ := hok
      obtain ⟨⟨t, i⟩, hres⟩ := Option.isSome_iff_exists.mp hre
      simp only [applyOp, rename_item, hres]
      rw [hnn]
      simp only [Bool.false_eq_true, if_false]
      exact ⟨push_undo_getLast depth _ _ hd, Or.inl (by first | trivial | rfl),
        undo_after_push depth tasks _ _ hd⟩
    | chPriO ident newP =>
      simp only [opOk, Bool.and_eq_true, decide_eq_true_eq] at hok
      obtain ⟨hre, hnp⟩ := hok
      obtain ⟨⟨t, i⟩, hres⟩ := Option.isSome_iff_exists.mp hre
      simp only [applyOp, change_priority, hres]
      rw [if_neg (not_not_intro hnp)]
      exact ⟨push_undo_getLast depth _ _ hd, Or.inl (by first | trivial | rfl),
        undo_after_push depth tasks _ _ hd⟩
    | chDateO ident newDate =>
      simp only [opOk, Bool.and_eq_true, Bool.or_eq_true_iff] at hok
      obtain ⟨hre, h3⟩ := hok
      obtain ⟨⟨t, i⟩, hres⟩ := Option.isSome_iff_exists.mp hre
      have hdc : (!(trimChars newDate).isEmpty &&
          (parse_date (trimChars newDate)).isNone) = false := by
        rcases h3 with h | h
        · rw [h]
          rfl
        · obtain ⟨v, hv⟩ := Option.isSome_iff_exists.mp h
          rw [hv]
          simp
      simp only [applyOp, change_date, hres]
      rw [hdc]
      simp only [Bool.false_eq_true, if_false]
      exact ⟨push_undo_getLast depth _ _ hd, Or.inl (by first | trivial | rfl),
        undo_after_push depth tasks _ _ hd⟩
    | toggleO ident fid created =>
      obtain ⟨⟨t, i⟩, hres⟩ := Option.isSome_iff_exists.mp hok
      simp only [applyOp, toggle_done, hres]
      exact ⟨push_undo_getLast depth _ _ hd, Or.inl (by first | trivial | rfl),
        undo_after_push depth tasks _ _ hd⟩
    | notesO ident newNotes =>
      obtain ⟨⟨t, i⟩, hres⟩ := Option.isSome_iff_exists.mp hok
      simp only [applyOp, edit_notes, hres]
      exact ⟨push_undo_getLast depth _ _ hd, Or.inl (by first | trivial | rfl),
        undo_after_push depth tasks _ _ hd⟩
    | clearO confirm =>
      simp only [opOk, Bool.and_eq_true, Bool.not_eq_true'] at hok
      obtain ⟨hne, hcf⟩ := hok
      simp only [applyOp, clear_completed]
      rw [hne]
      simp only [Bool.false_eq_true, if_false]
      rw [hcf]
      simp only [Bool.not_true, Bool.false_eq_true, if_false]
      exact ⟨push_undo_getLast depth _ _ hd, Or.inl (by first | trivial | rfl),
        undo_after_push depth tasks _ _ hd⟩
  · decide

/-- Witness for C2: renaming the only task pushes the pre-state and one
undo restores it. -/
theorem mutation_push_and_undo_witness :
    (applyOp 10 (Op.renameO ("1".toList) ("watered".toList))
        ⟨[taskW], [[]]⟩).stack.getLast? = some [taskW] ∧
    ((applyOp 10 (Op.renameO ("1".toList) ("watered".toList))
        ⟨[taskW], [[]]⟩).stack = push_undo 10 [[]] [taskW] ∨
      (applyOp 10 (Op.renameO ("1".toList) ("watered".toList))
        ⟨[taskW], [[]]⟩).stack =
        push_undo 10 (push_undo 10 [[]] [taskW]) [taskW]) ∧
    (undo_step (applyOp 10 (Op.renameO ("1".toList) ("watered".toList))
        ⟨[taskW], [[]]⟩)).tasks = [taskW] :=
  mutation_push_and_undo.1 10 (Op.renameO ("1".toList) ("watered".toList))
    ⟨[taskW], [[]]⟩ (by norm_num) (by decide)
end Todo
